import Mathlib

/-!
# ARION 1.0 codec — shallow embedding of the JavaScript reference implementation

This file embeds `src/js/src/arion.js` (functions `isNumberLike`, `parseScalar`,
`tokenizeLines`, `loadsArion`, `dumpsArion`) into Lean and proves properties of
the embedding.  Text is modelled as `List Char`; the parser's recursion is
fuel-indexed (the fuel is a structural-termination artifact; `loadsArion`
supplies `lines.length + 1`, which is shown to be enough).  JavaScript numbers
are modelled by their canonical literal text (`Value.num` stores the string that
`JSON.stringify` would produce); `jsNumCanon` records the one integer-literal
canonicalization JavaScript performs that is visible at this granularity
(`JSON.stringify(JSON.parse "-0") = "0"`), and it leaves fractional/exponent
literals untouched (float re-formatting is below the granularity of this model).
JavaScript object property order (integer-index keys first, in ascending
numeric order, then string keys in insertion order) is modelled by `jsInsert`.
-/

namespace Arion

/-- The JSON value model used by the codec.  `num` stores the number's
canonical literal text (the string `JSON.stringify` produces for it). -/
inductive Value where
  | null
  | bool (b : Bool)
  | num (s : String)
  | str (s : String)
  | arr (items : List Value)
  | obj (entries : List (String × Value))

/-- The whitespace set of JavaScript's `String.prototype.trim`
(WhiteSpace ∪ LineTerminator: TAB VT FF SP NBSP ZWNBSP, the Zs category,
LF CR LS PS). -/
def jsWhitespace (c : Char) : Bool :=
  decide (c.toNat = 9 ∨ c.toNat = 10 ∨ c.toNat = 11 ∨ c.toNat = 12 ∨ c.toNat = 13 ∨
    c.toNat = 32 ∨ c.toNat = 0xa0 ∨ c.toNat = 0x1680 ∨
    (0x2000 ≤ c.toNat ∧ c.toNat ≤ 0x200a) ∨ c.toNat = 0x2028 ∨ c.toNat = 0x2029 ∨
    c.toNat = 0x202f ∨ c.toNat = 0x205f ∨ c.toNat = 0x3000 ∨ c.toNat = 0xfeff)

/-- The whitespace accepted around a JSON document by `JSON.parse`. -/
def jsonWs (c : Char) : Bool :=
  decide (c.toNat = 32 ∨ c.toNat = 9 ∨ c.toNat = 10 ∨ c.toNat = 13)

/-- JavaScript `s.trim()` on char lists. -/
def jsTrimL (l : List Char) : List Char :=
  ((l.dropWhile jsWhitespace).reverse.dropWhile jsWhitespace).reverse

/-- Trim the `JSON.parse` whitespace set from both ends. -/
def jsonWsTrim (l : List Char) : List Char :=
  ((l.dropWhile jsonWs).reverse.dropWhile jsonWs).reverse

/-- The `[0-9]` class of the JSON number grammar. -/
def isDig (c : Char) : Bool := decide (48 ≤ c.toNat ∧ c.toNat ≤ 57)

def dropDigits (l : List Char) : List Char := l.dropWhile isDig

/-- Consume the integer part of a JSON number literal (`0` or a nonzero digit
followed by digits); `none` when it is absent. -/
def afterInt : List Char → Option (List Char)
  | '0' :: rest => some rest
  | c :: rest => if isDig c then some (dropDigits rest) else none
  | [] => none

/-- Consume an optional fraction part (`.` followed by at least one digit). -/
def afterFrac : List Char → List Char
  | '.' :: c :: rest => if isDig c then dropDigits rest else '.' :: c :: rest
  | l => l

/-- After an optional sign, an exponent needs at least one digit; otherwise
nothing is consumed (`orig` is returned). -/
def afterExpDigits (l orig : List Char) : List Char :=
  match l with
  | d :: rest => if isDig d then dropDigits rest else orig
  | [] => orig

/-- Consume an optional exponent part (`e`/`E`, optional sign, digits). -/
def afterExp : List Char → List Char
  | [] => []
  | [e] => [e]
  | e :: s :: rest2 =>
    if e = 'e' ∨ e = 'E' then
      if s = '+' ∨ s = '-' then afterExpDigits rest2 (e :: s :: rest2)
      else if isDig s then dropDigits rest2 else e :: s :: rest2
    else e :: s :: rest2

/-- Full-match test against the JSON number grammar
(`-? int frac? exp?`); this is what `JSON.parse` accepts as a number
once surrounding whitespace is removed. -/
def isJsonNumber (l : List Char) : Bool :=
  let l1 := match l with
    | '-' :: r => r
    | r => r
  match afterInt l1 with
  | none => false
  | some r => (afterExp (afterFrac r)).isEmpty

/-- `isNumberLike(s)` from arion.js: `JSON.parse(s)` succeeds and yields a
number.  `JSON.parse` tolerates surrounding JSON whitespace. -/
def isNumberLike (l : List Char) : Bool :=
  isJsonNumber (jsonWsTrim l)

/-- The single number canonicalization of `JSON.stringify ∘ JSON.parse` that is
visible at the granularity of this model: `"-0"` prints as `"0"`.  Literals in
non-canonical float spellings (e.g. `"1e1"`, `"5.0"`) denote doubles whose
canonical form differs, but no JavaScript value produced by `dumpsArion`
carries such a spelling, so they are left untouched here. -/
def jsNumCanon (l : List Char) : List Char :=
  if l = ['-', '0'] then ['0'] else l

/-- The body of `parseScalar(raw)` from arion.js after `const s = raw.trim()`:
empty string / `'`-quoted string / `true` / `false` / `null` / number /
verbatim string, in that order. -/
def parseScalarCore (s : List Char) : Value :=
  match s with
  | [] => .str ""
  | '\'' :: rest => .str (String.mk rest)
  | _ =>
    if s = ("true".toList) then .bool true
    else if s = ("false".toList) then .bool false
    else if s = ("null".toList) then .null
    else if isNumberLike s then .num (String.mk (jsNumCanon s))
    else .str (String.mk s)

/-- `parseScalar(raw)` from arion.js. -/
def parseScalar (raw : List Char) : Value :=
  parseScalarCore (jsTrimL raw)

/-- `text.split(/\r?\n/)`: split on `\n`, consuming one immediately preceding
`\r`; a lone `\r` is ordinary content. -/
def splitRN : List Char → List (List Char)
  | [] => [[]]
  | '\n' :: rest => [] :: splitRN rest
  | '\r' :: '\n' :: rest => [] :: splitRN rest
  | c :: rest =>
    match splitRN rest with
    | [] => [[c]]
    | h :: t => (c :: h) :: t

def startsWithL : List Char → List Char → Bool
  | [], _ => true
  | _ :: _, [] => false
  | p :: ps, c :: cs => p = c && startsWithL ps cs

/-- One line of `tokenizeLines` from arion.js: skip blank lines (all
JS-whitespace), strip leading spaces, compute the indent as the number of
spaces stripped, and drop `!ARION` header lines and `#` comment lines. -/
def tokLine (l : List Char) : Option (Nat × List Char) :=
  if l.all jsWhitespace then none
  else
    let stripped := l.dropWhile (fun c => c = ' ')
    if startsWithL ("!ARION".toList) stripped || startsWithL ("#".toList) stripped then none
    else some (l.length - stripped.length, stripped)

/-- `tokenizeLines(text)` from arion.js. -/
def tokenizeLines (text : List Char) : List (Nat × List Char) :=
  (splitRN text).filterMap tokLine

/-- Canonical-decimal array-index test, the key class that JavaScript objects
order numerically before all other keys (`0 ≤ n < 2^32 - 1`). -/
def digitsToNat (l : List Char) : Nat :=
  l.foldl (fun n c => 10 * n + (c.toNat - 48)) 0

def isArrayIndex (k : List Char) : Bool :=
  decide (k ≠ []) && k.all isDig &&
    (decide (k = ['0']) || decide (k.head? ≠ some '0')) &&
    decide (digitsToNat k < 4294967295)

def hasKey (l : List (String × Value)) (k : String) : Bool :=
  l.any (fun e => e.1 = k)

def updKey : List (String × Value) → String → Value → List (String × Value)
  | [], _, _ => []
  | (k', v') :: t, k, v => if k' = k then (k, v) :: t else (k', v') :: updKey t k v

def insIdx : List (String × Value) → String → Value → List (String × Value)
  | [], k, v => [(k, v)]
  | (k', v') :: t, k, v =>
    if isArrayIndex k'.toList && decide (digitsToNat k'.toList < digitsToNat k.toList) then
      (k', v') :: insIdx t k v
    else (k, v) :: (k', v') :: t

/-- `obj[key] = v` on a JavaScript plain object, observed through
`Object.entries`: an existing key is updated in place; a fresh array-index key
is sorted into the ascending integer-index prefix; any other fresh key is
appended. -/
def jsInsert (l : List (String × Value)) (k : String) (v : Value) : List (String × Value) :=
  if hasKey l k then updKey l k v
  else if isArrayIndex k.toList then insIdx l k v
  else l ++ [(k, v)]

/-- Decode errors.  arion.js throws plain `Error`s; the two throw sites are
distinguished here by constructor: `invalidLine` carries exactly the data
interpolated into "Invalid ARION line at indent ... : ...", and `mixed` is
"Mixed object and array at the same level is not allowed" (which carries no
location data).  `fuelOut` is an artifact of the fuel-indexed recursion and is
proved unreachable for the fuel `loadsArion` supplies. -/
inductive PErr where
  | invalidLine (indent : Nat) (stripped : String)
  | mixed
  | fuelOut

/-- Block finalization at the end of `parseBlock`: an array accumulator with no
object keys yields the array; both together is the mixed-container error;
otherwise the object. -/
def finalize (accO : List (String × Value)) (accA : Option (List Value))
    (rest : List (Nat × List Char)) : Except PErr (Value × List (Nat × List Char)) :=
  match accA with
  | some a =>
    match accO with
    | [] => .ok (.arr a, rest)
    | _ => .error .mixed
  | none => .ok (.obj accO, rest)

/-- `content.indexOf(" ")` + the two slices: split at the first space. -/
def splitFirstSpace : List Char → Option (List Char × List Char)
  | [] => none
  | ' ' :: rest => some ([], rest)
  | c :: rest => (splitFirstSpace rest).map (fun p => (c :: p.1, p.2))

def structuralL (s : List Char) : Bool :=
  startsWithL ['.'] s || startsWithL ['-'] s

/-- The inner `while` of the multiline-string branch: take lines whose indent
equals the child indent and whose content is not structurally prefixed. -/
def collectML (childIndent : Nat) :
    List (Nat × List Char) → List (List Char) × List (Nat × List Char)
  | [] => ([], [])
  | (ci, cs) :: rest =>
    if ci = childIndent ∧ ¬ (structuralL cs = true) then
      let r := collectML childIndent rest
      (cs :: r.1, r.2)
    else ([], (ci, cs) :: rest)

/-- `multiline.join("\n")` / `lines.join("\n")`. -/
def joinNL : List (List Char) → List Char
  | [] => []
  | [x] => x
  | x :: xs => x ++ '\n' :: joinNL xs

/-- `parseBlock(index, currentIndent)` from arion.js, with the loop expressed
as fuel-indexed recursion.  `accO`/`accA` are the `obj`/`arr` accumulators;
the result pairs the block's value with the unconsumed lines. -/
def parseLoop : Nat → List (Nat × List Char) → Nat → List (String × Value) →
    Option (List Value) → Except PErr (Value × List (Nat × List Char))
  | _, [], _, accO, accA => finalize accO accA []
  | 0, (i, s) :: rest, t, accO, accA =>
    if i < t then finalize accO accA ((i, s) :: rest)
    else .error .fuelOut
  | fuel' + 1, (i, s) :: rest, t, accO, accA =>
    if i < t then finalize accO accA ((i, s) :: rest)
    else
      match s with
        | '.' :: content =>
          match splitFirstSpace content with
          | some (key, valueStr) =>
            parseLoop fuel' rest t (jsInsert accO (String.mk key) (parseScalar valueStr)) accA
          | none =>
            match rest with
            | [] => parseLoop fuel' rest t (jsInsert accO (String.mk content) (.obj [])) accA
            | (ni, ns) :: _ =>
              if ni ≤ i then
                parseLoop fuel' rest t (jsInsert accO (String.mk content) (.obj [])) accA
              else if ¬ (structuralL ns = true) then
                parseLoop fuel' (collectML ni rest).2 t
                  (jsInsert accO (String.mk content)
                    (.str (String.mk (joinNL (collectML ni rest).1)))) accA
              else
                match parseLoop fuel' rest (i + 1) [] none with
                | .error e => .error e
                | .ok (v, rest') =>
                  parseLoop fuel' rest' t (jsInsert accO (String.mk content) v) accA
        | '-' :: tailRaw =>
          if jsTrimL tailRaw ≠ [] then
            parseLoop fuel' rest t accO
              (some (accA.getD [] ++ [parseScalar (jsTrimL tailRaw)]))
          else
            match rest with
            | [] => parseLoop fuel' rest t accO (some (accA.getD [] ++ [.obj []]))
            | (ni, _) :: _ =>
              if ni ≤ i then parseLoop fuel' rest t accO (some (accA.getD [] ++ [.obj []]))
              else
                match parseLoop fuel' rest (i + 1) [] none with
                | .error e => .error e
                | .ok (v, rest') => parseLoop fuel' rest' t accO (some (accA.getD [] ++ [v]))
        | _ => .error (.invalidLine i (String.mk s))

/-- `loadsArion(text)` from arion.js: tokenize; an empty line list decodes to
`null`; otherwise parse one block seeded with the first line's indent and
return its value (the unconsumed index is discarded, as in the source). -/
def loadsArion (text : String) : Except PErr Value :=
  let lines := tokenizeLines text.toList
  match lines with
  | [] => .ok .null
  | (i, _) :: _ =>
    match parseLoop (lines.length + 1) lines i [] none with
    | .error e => .error e
    | .ok (v, _) => .ok v

mutual

/-- `Array.prototype.join(",")`'s element coercion: inside a join, `null`
renders as the empty string; a nested array joins recursively; an object
renders as `[object Object]`.  Reached only through `encodeScalar`'s
`String(v)` fallback, which the encoder never applies to arrays or objects. -/
def jsJoinElem : Value → List Char
  | .null => []
  | .bool true => ("true".toList)
  | .bool false => ("false".toList)
  | .num s => s.toList
  | .str s => s.toList
  | .arr items => jsJoinList items
  | .obj _ => ("[object Object]".toList)

def jsJoinList : List Value → List Char
  | [] => []
  | [v] => jsJoinElem v
  | v :: vs => jsJoinElem v ++ ',' :: jsJoinList vs

end

/-- JavaScript `String(v)` for the values `encodeScalar`'s fallback can see. -/
def jsStringCoerce : Value → List Char
  | .null => ("null".toList)
  | .bool true => ("true".toList)
  | .bool false => ("false".toList)
  | .num s => s.toList
  | .str s => s.toList
  | .arr items => jsJoinList items
  | .obj _ => ("[object Object]".toList)

/-- `encodeScalar(v)` from `dumpsArion`: booleans, null and numbers print
canonically; any other value is coerced with `String(v)` and prefixed with a
single `'` when the text would be mis-resolved (a keyword or number-like). -/
def encodeScalar (v : Value) : List Char :=
  match v with
  | .bool true => ("true".toList)
  | .bool false => ("false".toList)
  | .null => ("null".toList)
  | .num s => s.toList
  | _ =>
    let s := jsStringCoerce v
    if s = ("true".toList) || s = ("false".toList) || s = ("null".toList) || isNumberLike s then
      '\'' :: s
    else s

/-- `item.split("\n")`. -/
def splitNL : List Char → List (List Char)
  | [] => [[]]
  | c :: rest =>
    if c = '\n' then [] :: splitNL rest
    else
      match splitNL rest with
      | [] => [[c]]
      | h :: t => (c :: h) :: t

mutual

/-- `encodeBlock(v, indent, ...)` from `dumpsArion`, with each emitted line
represented as `(indent, content)`; the final text renders a line as
`indent` spaces followed by its content, exactly as the source's string
concatenation `sp + content` does.  `encodeObjEntries`/`encodeArrItems` are
the object-entries/array-items loops of `encodeBlock`; the recursive
`encodeBlock(value, indent + 2, ...)` call on a compound child appears inline
as a call at `ind + 2`. -/
def encodeObjEntries : List (String × Value) → Nat → List (Nat × List Char)
  | [], _ => []
  | (k, v) :: es, ind =>
    (match v with
     | .arr items => (ind, '.' :: k.toList) :: encodeArrItems items (ind + 2)
     | .obj oes => (ind, '.' :: k.toList) :: encodeObjEntries oes (ind + 2)
     | .str s =>
       if ('\n' : Char) ∈ s.toList then
         (ind, '.' :: k.toList) :: (splitNL s.toList).map (fun seg => (ind + 2, seg))
       else [(ind, '.' :: k.toList ++ ' ' :: encodeScalar (.str s))]
     | sv => [(ind, '.' :: k.toList ++ ' ' :: encodeScalar sv)]) ++ encodeObjEntries es ind

def encodeArrItems : List Value → Nat → List (Nat × List Char)
  | [], _ => []
  | item :: its, ind =>
    (match item with
     | .arr items => (ind, ['-']) :: encodeArrItems items (ind + 2)
     | .obj oes => (ind, ['-']) :: encodeObjEntries oes (ind + 2)
     | .str s =>
       if ('\n' : Char) ∈ s.toList then
         (ind, ['-']) :: (splitNL s.toList).map (fun seg => (ind + 2, seg))
       else [(ind, '-' :: ' ' :: encodeScalar (.str s))]
     | sv => [(ind, '-' :: ' ' :: encodeScalar sv)]) ++ encodeArrItems its ind

end

/-- The top-level `encodeBlock(value, 0, Array.isArray(value))` dispatch. -/
def dumpsLines (v : Value) : List (Nat × List Char) :=
  match v with
  | .arr items => encodeArrItems items 0
  | .obj es => encodeObjEntries es 0
  | sv => [(0, '-' :: ' ' :: encodeScalar sv)]

def spacesL (n : Nat) : List Char := List.replicate n ' '

def renderLine (l : Nat × List Char) : List Char := spacesL l.1 ++ l.2

/-- `dumpsArion(value, header)` from arion.js: optional two-line header, the
encoded block, joined with `\n` and ended with one trailing newline. -/
def dumpsArion (v : Value) (header : Bool := true) : String :=
  String.mk (joinNL ((if header then [("!ARION 1.0".toList), ([] : List Char)] else []) ++
    (dumpsLines v).map renderLine) ++ ['\n'])

/-! ## Basic lemmas about the character-level helpers -/

theorem head_dropWhile_false (p : Char → Bool) :
    ∀ (l : List Char) (c : Char), (l.dropWhile p).head? = some c → p c = false := by
  intro l
  induction l with
  | nil => intro c h; simp at h
  | cons a t ih =>
    intro c h
    rw [List.dropWhile_cons] at h
    by_cases hp : p a = true
    · exact ih c (by simpa [hp] using h)
    · simp only [hp] at h
      simp only [Bool.false_eq_true, if_false, List.head?_cons, Option.some.injEq] at h
      subst h
      simpa using hp

theorem dropWhile_eq_self_of_head (p : Char → Bool) (l : List Char)
    (h : ∀ c, l.head? = some c → p c = false) : l.dropWhile p = l := by
  cases l with
  | nil => rfl
  | cons c t => simp [List.dropWhile_cons, h c rfl]

theorem length_jsTrimL_le (l : List Char) : (jsTrimL l).length ≤ l.length := by
  unfold jsTrimL
  calc ((l.dropWhile jsWhitespace).reverse.dropWhile jsWhitespace).reverse.length
      = ((l.dropWhile jsWhitespace).reverse.dropWhile jsWhitespace).length := by
        rw [List.length_reverse]
    _ ≤ (l.dropWhile jsWhitespace).reverse.length := (List.dropWhile_suffix _).length_le
    _ = (l.dropWhile jsWhitespace).length := by rw [List.length_reverse]
    _ ≤ l.length := (List.dropWhile_suffix _).length_le

theorem jsTrimL_cons_ws (c : Char) (l : List Char) (h : jsWhitespace c = true) :
    jsTrimL (c :: l) = jsTrimL l := by
  simp [jsTrimL, List.dropWhile_cons, h]

theorem jsTrimL_eq_self (l : List Char)
    (h1 : ∀ c, l.head? = some c → jsWhitespace c = false)
    (h2 : ∀ c, l.getLast? = some c → jsWhitespace c = false) :
    jsTrimL l = l := by
  unfold jsTrimL
  rw [dropWhile_eq_self_of_head _ _ h1]
  rw [dropWhile_eq_self_of_head _ _ (by simpa [List.head?_reverse] using h2)]
  exact List.reverse_reverse l

theorem jsTrimL_self_head (l : List Char) (h : jsTrimL l = l) :
    ∀ c, l.head? = some c → jsWhitespace c = false := by
  intro c hc
  cases l with
  | nil => simp at hc
  | cons a t =>
    simp only [List.head?_cons, Option.some.injEq] at hc
    by_contra hw
    rw [jsTrimL_cons_ws a t (by rw [hc]; simpa using hw)] at h
    have := length_jsTrimL_le t
    rw [h] at this
    simp at this

theorem jsTrimL_self_getLast (l : List Char) (h : jsTrimL l = l) :
    ∀ c, l.getLast? = some c → jsWhitespace c = false := by
  intro c hc
  have hrev : l.reverse = (l.dropWhile jsWhitespace).reverse.dropWhile jsWhitespace := by
    conv_lhs => rw [← h]
    unfold jsTrimL
    rw [List.reverse_reverse]
  have : l.reverse.head? = some c := by rw [List.head?_reverse]; exact hc
  rw [hrev] at this
  exact head_dropWhile_false _ _ _ this

theorem splitFirstSpace_cons_ne (c : Char) (t : List Char) (hc : c ≠ ' ') :
    splitFirstSpace (c :: t) = (splitFirstSpace t).map (fun p => (c :: p.1, p.2)) := by
  rw [splitFirstSpace.eq_def]
  split
  · rename_i heq
    simp at heq
  · rename_i rest heq
    simp only [List.cons.injEq] at heq
    exact absurd heq.1 hc
  · rename_i c' rest heq
    simp only [List.cons.injEq] at heq
    obtain ⟨rfl, rfl⟩ := heq
    rfl

theorem splitFirstSpace_of_no_space :
    ∀ (l : List Char), ' ' ∉ l → splitFirstSpace l = none := by
  intro l
  induction l with
  | nil => intro _; rfl
  | cons c t ih =>
    intro h
    have hc : c ≠ ' ' := by intro hcc; exact h (by simp [hcc])
    have ht : ' ' ∉ t := fun hm => h (by simp [hm])
    rw [splitFirstSpace_cons_ne c t hc, ih ht]
    rfl

theorem splitFirstSpace_append (k b : List Char) (h : ' ' ∉ k) :
    splitFirstSpace (k ++ ' ' :: b) = some (k, b) := by
  induction k with
  | nil => rfl
  | cons c t ih =>
    have hc : c ≠ ' ' := by intro hcc; exact h (by simp [hcc])
    have ht : ' ' ∉ t := fun hm => h (by simp [hm])
    rw [List.cons_append, splitFirstSpace_cons_ne c _ hc, ih ht]
    rfl

theorem splitNL_cons_nl (t : List Char) : splitNL ('\n' :: t) = [] :: splitNL t := rfl

theorem splitNL_cons_ne (c : Char) (t : List Char) (hc : c ≠ '\n') (h2 : List Char)
    (t2 : List (List Char)) (hs : splitNL t = h2 :: t2) :
    splitNL (c :: t) = (c :: h2) :: t2 := by
  show (if c = '\n' then [] :: splitNL t
    else match splitNL t with
      | [] => [[c]]
      | h :: t2 => (c :: h) :: t2) = (c :: h2) :: t2
  rw [if_neg hc, hs]

theorem splitNL_exists_cons (l : List Char) : ∃ h t, splitNL l = h :: t := by
  induction l with
  | nil => exact ⟨[], [], rfl⟩
  | cons c t ih =>
    obtain ⟨h2, t2, hs⟩ := ih
    by_cases hc : c = '\n'
    · subst hc
      exact ⟨[], splitNL t, splitNL_cons_nl t⟩
    · exact ⟨c :: h2, t2, splitNL_cons_ne c t hc h2 t2 hs⟩

theorem splitNL_ne_nil (l : List Char) : splitNL l ≠ [] := by
  obtain ⟨h, t, hs⟩ := splitNL_exists_cons l
  rw [hs]
  simp

theorem joinNL_cons_cons (x : List Char) (y : List Char) (ys : List (List Char)) :
    joinNL (x :: y :: ys) = x ++ '\n' :: joinNL (y :: ys) := rfl

theorem joinNL_splitNL (l : List Char) : joinNL (splitNL l) = l := by
  induction l with
  | nil => rfl
  | cons c t ih =>
    obtain ⟨h2, t2, hs⟩ := splitNL_exists_cons t
    by_cases hc : c = '\n'
    · subst hc
      rw [splitNL_cons_nl, hs, joinNL_cons_cons, ← hs, ih]
      rfl
    · rw [splitNL_cons_ne c t hc h2 t2 hs]
      rw [hs] at ih
      cases t2 with
      | nil =>
        show (c :: h2) = c :: t
        have : joinNL [h2] = t := ih
        simp only [joinNL] at this
        rw [this]
      | cons h3 t3 =>
        rw [joinNL_cons_cons]
        rw [joinNL_cons_cons] at ih
        simp only [List.cons_append, List.cons.injEq, true_and]
        exact ih

theorem mem_splitNL_no_nl (l : List Char) :
    ∀ seg ∈ splitNL l, ('\n' : Char) ∉ seg := by
  induction l with
  | nil =>
    intro seg hs
    simp only [splitNL, List.mem_singleton] at hs
    simp [hs]
  | cons c t ih =>
    intro seg hs
    obtain ⟨h2, t2, hmatch⟩ := splitNL_exists_cons t
    by_cases hc : c = '\n'
    · subst hc
      rw [splitNL_cons_nl] at hs
      simp only [List.mem_cons] at hs
      rcases hs with rfl | hs
      · simp
      · exact ih seg hs
    · rw [splitNL_cons_ne c t hc h2 t2 hmatch] at hs
      simp only [List.mem_cons] at hs
      rcases hs with rfl | hs
      · have hh2 : ('\n' : Char) ∉ h2 := ih h2 (by rw [hmatch]; simp)
        simp only [List.mem_cons, not_or]
        exact ⟨fun hcc => hc hcc.symm, hh2⟩
      · exact ih seg (by rw [hmatch]; simp [hs])

/-! ## Splitting rendered text back into lines -/

theorem splitRN_cons_gen (c : Char) (X : List Char) (hc : c ≠ '\n')
    (hcr : c = '\r' → X.head? ≠ some '\n') :
    splitRN (c :: X) = match splitRN X with
      | [] => [[c]]
      | h :: t => (c :: h) :: t := by
  rw [splitRN.eq_def]
  split
  · rename_i heq
    exact absurd heq (by simp)
  · rename_i heq
    simp only [List.cons.injEq] at heq
    exact absurd heq.1 hc
  · rename_i rest2 heq
    simp only [List.cons.injEq] at heq
    obtain ⟨hcc, hX⟩ := heq
    exact absurd (by rw [hX]; rfl) (hcr hcc)
  · rename_i c2 rest2 hno1 hno2 heq
    simp only [List.cons.injEq] at heq
    obtain ⟨rfl, rfl⟩ := heq
    rfl

theorem splitRN_cons_nl' (t : List Char) : splitRN ('\n' :: t) = [] :: splitRN t := rfl

theorem splitRN_append_nl (l rest : List Char) (h1 : ('\n' : Char) ∉ l)
    (h2 : l.getLast? ≠ some '\r') :
    splitRN (l ++ '\n' :: rest) = l :: splitRN rest := by
  induction l with
  | nil => rfl
  | cons c t ih =>
    have hc : c ≠ '\n' := fun hcc => h1 (by simp [hcc])
    have ht1 : ('\n' : Char) ∉ t := fun hm => h1 (by simp [hm])
    rw [List.cons_append]
    cases t with
    | nil =>
      have hcr : c ≠ '\r' := by
        intro hcc
        exact h2 (by simp [hcc])
      simp only [List.nil_append]
      rw [splitRN_cons_gen c ('\n' :: rest) hc (fun hcc => absurd hcc hcr)]
      rw [splitRN_cons_nl']
    | cons d t' =>
      have hd : d ≠ '\n' := fun hdd => ht1 (by simp [hdd])
      have ht2 : (d :: t').getLast? ≠ some '\r' := by
        rwa [List.getLast?_cons_cons] at h2
      have ihh := ih ht1 ht2
      rw [splitRN_cons_gen c ((d :: t') ++ '\n' :: rest) hc
        (by intro _ hh; rw [List.cons_append] at hh; simp only [List.head?_cons,
          Option.some.injEq] at hh; exact hd hh)]
      rw [ihh]

theorem splitRN_joinNL : ∀ (ls : List (List Char)), ls ≠ [] →
    (∀ l ∈ ls, ('\n' : Char) ∉ l ∧ l.getLast? ≠ some '\r') →
    splitRN (joinNL ls ++ ['\n']) = ls ++ [[]] := by
  intro ls
  induction ls with
  | nil => intro h; exact absurd rfl h
  | cons l ls' ih =>
    intro _ hcond
    cases ls' with
    | nil =>
      show splitRN (l ++ '\n' :: []) = [l, []]
      rw [splitRN_append_nl l [] (hcond l (by simp)).1 (hcond l (by simp)).2]
      rfl
    | cons l2 ls2 =>
      rw [joinNL_cons_cons, List.append_assoc, List.cons_append]
      rw [splitRN_append_nl l _ (hcond l (by simp)).1 (hcond l (by simp)).2]
      rw [ih (by simp) (fun x hx => hcond x (by simp [hx]))]
      rfl

/-! ## Tokenizing well-formed rendered lines -/

theorem dropWhile_replicate_append (p : Char → Bool) (n : Nat) (a : Char) (l : List Char)
    (h : p a = true) : (List.replicate n a ++ l).dropWhile p = l.dropWhile p := by
  induction n with
  | zero => simp
  | succ m ih => simp [List.replicate_succ, List.dropWhile_cons, h, ih]

/-- Tokenizing a rendered line `spaces ++ content` recovers exactly
`(indent, content)` when the content is non-blank, does not itself begin with
a space, and is not a header or comment line. -/
theorem tokLine_render (i : Nat) (c : List Char)
    (hsp : c.head? ≠ some ' ')
    (hbl : c.all jsWhitespace = false)
    (hban : startsWithL ("!ARION".toList) c = false)
    (hcom : startsWithL ("#".toList) c = false) :
    tokLine (spacesL i ++ c) = some (i, c) := by
  have hdrop : (spacesL i ++ c).dropWhile (fun x => x = ' ') = c := by
    rw [spacesL, dropWhile_replicate_append _ i ' ' c (by simp)]
    apply dropWhile_eq_self_of_head
    intro x hx
    simp only [decide_eq_false_iff_not]
    intro hxx
    rw [hx, hxx] at hsp
    exact hsp rfl
  unfold tokLine
  rw [if_neg (by
    rw [List.all_append]
    simp only [Bool.and_eq_true, not_and]
    intro _
    simp [hbl])]
  rw [hdrop]
  rw [if_neg (by
    simp only [Bool.or_eq_true, not_or]
    exact ⟨by simpa using hban, by simpa using hcom⟩)]
  simp [spacesL]

theorem tokLine_banner : tokLine ("!ARION 1.0".toList) = none := by decide

theorem tokLine_blank : tokLine ([] : List Char) = none := rfl

/-! ## JavaScript object insertion -/

theorem jsInsert_fresh (l : List (String × Value)) (k : String) (v : Value)
    (h1 : hasKey l k = false) (h2 : isArrayIndex k.toList = false) :
    jsInsert l k v = l ++ [(k, v)] := by
  have h2' : isArrayIndex k.data = false := h2
  simp [jsInsert, h1, h2']

theorem jsInsert_ne_nil (l : List (String × Value)) (k : String) (v : Value) :
    jsInsert l k v ≠ [] := by
  unfold jsInsert
  split
  · rename_i h
    cases l with
    | nil => simp [hasKey] at h
    | cons e t =>
      unfold updKey
      split <;> simp
  · split
    · cases l with
      | nil => simp [insIdx]
      | cons e t =>
        unfold insIdx
        split <;> simp
    · simp


/-! ## Characters of valid JSON number literals -/

/-- The alphabet a JSON number literal can use. -/
def numSym (c : Char) : Bool :=
  isDig c || decide (c = '-' ∨ c = '+' ∨ c = '.' ∨ c = 'e' ∨ c = 'E')

theorem getLast_digit (ds : List Char) (h1 : ds ≠ []) (h2 : ∀ c ∈ ds, isDig c = true) :
    ∃ d, ds.getLast? = some d ∧ isDig d = true := by
  cases hl : ds.getLast? with
  | none => exact absurd (by simpa using hl) h1
  | some d => exact ⟨d, rfl, h2 d (List.mem_of_mem_getLast? hl)⟩

theorem takeDrop_isDig (rest : List Char) :
    rest.takeWhile isDig ++ dropDigits rest = rest := by
  show rest.takeWhile isDig ++ rest.dropWhile isDig = rest
  exact List.takeWhile_append_dropWhile _ _

theorem afterInt_cons_ne (c : Char) (rest : List Char) (hc : c ≠ '0') :
    afterInt (c :: rest) = if isDig c then some (dropDigits rest) else none := by
  rw [afterInt.eq_def]
  split
  · rename_i heq
    simp only [List.cons.injEq] at heq
    exact absurd heq.1 hc
  · rename_i heq
    simp only [List.cons.injEq] at heq
    rw [heq.1, heq.2]
  · rename_i heq
    simp at heq

theorem afterInt_decomp (l r : List Char) (h : afterInt l = some r) :
    ∃ pre, l = pre ++ r ∧ pre ≠ [] ∧ ∀ c ∈ pre, isDig c = true := by
  cases l with
  | nil => exact absurd h (by simp [afterInt])
  | cons c rest =>
    by_cases hc : c = '0'
    · subst hc
      obtain rfl : rest = r := by simpa [afterInt] using h
      refine ⟨['0'], rfl, by simp, ?_⟩
      intro x hx
      simp only [List.mem_singleton] at hx
      rw [hx]
      decide
    · rw [afterInt_cons_ne c rest hc] at h
      by_cases hd : isDig c = true
      · rw [if_pos hd] at h
        obtain rfl : dropDigits rest = r := by simpa using h
        refine ⟨c :: rest.takeWhile isDig, ?_, by simp, ?_⟩
        · show c :: rest = c :: (rest.takeWhile isDig ++ dropDigits rest)
          rw [takeDrop_isDig]
        · intro x hx
          rcases List.mem_cons.mp hx with rfl | hx2
          · exact hd
          · exact List.mem_takeWhile_imp hx2
      · rw [if_neg hd] at h
        exact absurd h (by simp)

theorem afterFrac_decomp (r z : List Char) (h : afterFrac r = z) :
    z = r ∨ ∃ ds, r = '.' :: (ds ++ z) ∧ ds ≠ [] ∧ ∀ c ∈ ds, isDig c = true := by
  rw [afterFrac.eq_def] at h
  split at h
  · rename_i c rest
    by_cases hd : isDig c = true
    · rw [if_pos hd] at h
      right
      refine ⟨c :: rest.takeWhile isDig, ?_, by simp, ?_⟩
      · rw [← h]
        show '.' :: c :: rest = '.' :: (c :: (rest.takeWhile isDig ++ dropDigits rest))
        rw [takeDrop_isDig rest]
      · intro x hx
        rcases List.mem_cons.mp hx with rfl | hx2
        · exact hd
        · exact List.mem_takeWhile_imp hx2
    · rw [if_neg hd] at h
      exact Or.inl h.symm
  · exact Or.inl h.symm

theorem afterExp_decomp (z w : List Char) (h : afterExp z = w) :
    w = z ∨ ∃ pre ds, z = pre ++ (ds ++ w) ∧ pre ≠ [] ∧ ds ≠ [] ∧
      (∀ c ∈ pre, c = 'e' ∨ c = 'E' ∨ c = '+' ∨ c = '-') ∧ (∀ c ∈ ds, isDig c = true) := by
  match z with
  | [] => left; rw [← h]; rfl
  | [e] => left; rw [← h]; rfl
  | e :: s :: rest2 =>
    rw [show afterExp (e :: s :: rest2) =
      (if e = 'e' ∨ e = 'E' then
        if s = '+' ∨ s = '-' then afterExpDigits rest2 (e :: s :: rest2)
        else if isDig s then dropDigits rest2 else e :: s :: rest2
      else e :: s :: rest2) from rfl] at h
    by_cases he : e = 'e' ∨ e = 'E'
    · rw [if_pos he] at h
      by_cases hs : s = '+' ∨ s = '-'
      · rw [if_pos hs] at h
        match rest2, h with
        | [], h => exact Or.inl h.symm
        | d :: rest3, h =>
          rw [show afterExpDigits (d :: rest3) (e :: s :: d :: rest3) =
            (if isDig d then dropDigits rest3 else e :: s :: d :: rest3) from rfl] at h
          by_cases hd : isDig d = true
          · rw [if_pos hd] at h
            right
            refine ⟨[e, s], d :: rest3.takeWhile isDig, ?_, by simp, by simp, ?_, ?_⟩
            · rw [← h]
              show e :: s :: d :: rest3 =
                [e, s] ++ (d :: (rest3.takeWhile isDig ++ dropDigits rest3))
              rw [takeDrop_isDig rest3]
              rfl
            · intro x hx
              simp only [List.mem_cons, List.not_mem_nil, or_false] at hx
              rcases hx with rfl | rfl
              · rcases he with h1 | h1
                · exact Or.inl h1
                · exact Or.inr (Or.inl h1)
              · rcases hs with h1 | h1
                · exact Or.inr (Or.inr (Or.inl h1))
                · exact Or.inr (Or.inr (Or.inr h1))
            · intro x hx
              rcases List.mem_cons.mp hx with rfl | hx2
              · exact hd
              · exact List.mem_takeWhile_imp hx2
          · rw [if_neg hd] at h
            exact Or.inl h.symm
      · rw [if_neg hs] at h
        by_cases hsd : isDig s = true
        · rw [if_pos hsd] at h
          right
          refine ⟨[e], s :: rest2.takeWhile isDig, ?_, by simp, by simp, ?_, ?_⟩
          · rw [← h]
            show e :: s :: rest2 = [e] ++ (s :: (rest2.takeWhile isDig ++ dropDigits rest2))
            rw [takeDrop_isDig rest2]
            rfl
          · intro x hx
            simp only [List.mem_singleton] at hx
            rw [hx]
            rcases he with h1 | h1
            · exact Or.inl h1
            · exact Or.inr (Or.inl h1)
          · intro x hx
            rcases List.mem_cons.mp hx with rfl | hx2
            · exact hsd
            · exact List.mem_takeWhile_imp hx2
        · rw [if_neg hsd] at h
          exact Or.inl h.symm
    · rw [if_neg he] at h
      exact Or.inl h.symm

theorem expSym_numSym (c : Char) (h : c = 'e' ∨ c = 'E' ∨ c = '+' ∨ c = '-') :
    numSym c = true := by
  rcases h with rfl | rfl | rfl | rfl <;> decide

theorem isDig_numSym (c : Char) (h : isDig c = true) : numSym c = true := by
  simp [numSym, h]

/-- Structure facts about the part of a JSON number literal after the optional
leading minus: nonempty, drawn from the number alphabet, ending in a digit and
beginning with a digit. -/
theorem jsonCore_facts (l1 r : List Char) (hInt : afterInt l1 = some r)
    (hRest : (afterExp (afterFrac r)).isEmpty = true) :
    l1 ≠ [] ∧ (∀ c ∈ l1, numSym c = true) ∧
      (∃ d, l1.getLast? = some d ∧ isDig d = true) ∧
      (∃ c0, l1.head? = some c0 ∧ isDig c0 = true) := by
  obtain ⟨preI, hL1, hPreNe, hPreDig⟩ := afterInt_decomp l1 r hInt
  have hw : afterExp (afterFrac r) = [] := by
    rwa [List.isEmpty_iff] at hRest
  have hFrac := afterFrac_decomp r (afterFrac r) rfl
  have hExp := afterExp_decomp (afterFrac r) [] hw
  have hr : r = [] ∨ (r ≠ [] ∧ (∀ c ∈ r, numSym c = true) ∧
      ∃ d, r.getLast? = some d ∧ isDig d = true) := by
    rcases hFrac with hzr | ⟨ds1, hr1, hds1ne, hds1dig⟩
    · rcases hExp with hwz | ⟨pre2, ds2, hz2, hpre2ne, hds2ne, hpre2sym, hds2dig⟩
      · left
        rw [← hzr, ← hwz]
      · right
        rw [hzr] at hz2
        simp only [List.append_nil] at hz2
        obtain ⟨d, hd, hddig⟩ := getLast_digit ds2 hds2ne hds2dig
        refine ⟨by rw [hz2]; simp [hpre2ne], ?_, d, ?_, hddig⟩
        · intro x hx
          rw [hz2] at hx
          rcases List.mem_append.mp hx with h1 | h2
          · exact expSym_numSym x (hpre2sym x h1)
          · exact isDig_numSym x (hds2dig x h2)
        · rw [hz2]
          rw [List.getLast?_append_of_ne_nil pre2 hds2ne]
          exact hd
    · rcases hExp with hwz | ⟨pre2, ds2, hz2, hpre2ne, hds2ne, hpre2sym, hds2dig⟩
      · right
        rw [← hwz] at hr1
        simp only [List.append_nil] at hr1
        obtain ⟨d, hd, hddig⟩ := getLast_digit ds1 hds1ne hds1dig
        refine ⟨by rw [hr1]; simp, ?_, d, ?_, hddig⟩
        · intro x hx
          rw [hr1] at hx
          rcases List.mem_cons.mp hx with rfl | h2
          · decide
          · exact isDig_numSym x (hds1dig x h2)
        · rw [hr1]
          rw [show ('.' :: ds1) = ['.'] ++ ds1 from rfl]
          rw [List.getLast?_append_of_ne_nil ['.'] hds1ne]
          exact hd
      · right
        rw [hz2] at hr1
        simp only [List.append_nil] at hr1
        obtain ⟨d, hd, hddig⟩ := getLast_digit ds2 hds2ne hds2dig
        refine ⟨by rw [hr1]; simp, ?_, d, ?_, hddig⟩
        · intro x hx
          rw [hr1] at hx
          rcases List.mem_cons.mp hx with rfl | h2
          · decide
          · rcases List.mem_append.mp h2 with h2a | h2b
            · exact isDig_numSym x (hds1dig x h2a)
            · rcases List.mem_append.mp h2b with h2c | h2d
              · exact expSym_numSym x (hpre2sym x h2c)
              · exact isDig_numSym x (hds2dig x h2d)
        · rw [hr1]
          rw [show ('.' :: (ds1 ++ (pre2 ++ ds2))) = ('.' :: ds1 ++ pre2) ++ ds2 by simp]
          rw [List.getLast?_append_of_ne_nil _ hds2ne]
          exact hd
  obtain ⟨dI, hdI, hdIdig⟩ := getLast_digit preI hPreNe hPreDig
  obtain ⟨cI, hcI⟩ : ∃ c0, preI.head? = some c0 := by
    cases hh : preI.head? with
    | none => exact absurd (by simpa using hh) hPreNe
    | some c0 => exact ⟨c0, rfl⟩
  have hcIdig : isDig cI = true := by
    refine hPreDig cI ?_
    cases preI with
    | nil => simp at hcI
    | cons a t =>
      simp only [List.head?_cons, Option.some.injEq] at hcI
      simp [← hcI]
  have hHead : l1.head? = some cI := by
    rw [hL1]
    cases preI with
    | nil => exact absurd rfl hPreNe
    | cons a t => simpa using hcI
  rcases hr with rfl | ⟨hrne, hrsym, d, hrd, hrddig⟩
  · rw [List.append_nil] at hL1
    subst hL1
    exact ⟨hPreNe, fun c hc => isDig_numSym c (hPreDig c hc), ⟨dI, hdI, hdIdig⟩, cI, hHead, hcIdig⟩
  · subst hL1
    refine ⟨by simp [hPreNe], ?_, ⟨d, ?_, hrddig⟩, cI, hHead, hcIdig⟩
    · intro x hx
      rcases List.mem_append.mp hx with h1 | h2
      · exact isDig_numSym x (hPreDig x h1)
      · exact hrsym x h2
    · rw [List.getLast?_append_of_ne_nil preI hrne]
      exact hrd

theorem minusStrip_of_ne (c : Char) (rest : List Char) (hc : c ≠ '-') :
    (match (c :: rest) with
      | '-' :: r => r
      | r => r) = c :: rest := by
  split
  · rename_i heq
    simp only [List.cons.injEq] at heq
    exact absurd heq.1 hc
  · rfl

/-- Character facts about any valid JSON number literal: nonempty, drawn from
the number alphabet, ending in a digit, and beginning with `-` or a digit. -/
theorem isJsonNumber_facts (l : List Char) (h : isJsonNumber l = true) :
    l ≠ [] ∧ (∀ c ∈ l, numSym c = true) ∧
      (∃ d, l.getLast? = some d ∧ isDig d = true) ∧
      (∃ c0, l.head? = some c0 ∧ (c0 = '-' ∨ isDig c0 = true)) := by
  unfold isJsonNumber at h
  cases l with
  | nil => simp [afterInt] at h
  | cons c rest =>
    by_cases hc : c = '-'
    · subst hc
      have h2 : (match afterInt rest with
          | none => false
          | some r => (afterExp (afterFrac r)).isEmpty) = true := h
      clear h
      cases hInt : afterInt rest with
      | none => rw [hInt] at h2; simp at h2
      | some r =>
        rw [hInt] at h2
        obtain ⟨hne, hsym, ⟨d, hd, hddig⟩, -⟩ := jsonCore_facts rest r hInt h2
        refine ⟨by simp, ?_, ⟨d, ?_, hddig⟩, '-', rfl, Or.inl rfl⟩
        · intro x hx
          rcases List.mem_cons.mp hx with rfl | hx2
          · decide
          · exact hsym x hx2
        · rw [show ('-' :: rest) = ['-'] ++ rest from rfl]
          rw [List.getLast?_append_of_ne_nil ['-'] hne]
          exact hd
    · rw [minusStrip_of_ne c rest hc] at h
      have h2 : (match afterInt (c :: rest) with
          | none => false
          | some r => (afterExp (afterFrac r)).isEmpty) = true := h
      clear h
      cases hInt : afterInt (c :: rest) with
      | none => rw [hInt] at h2; simp at h2
      | some r =>
        rw [hInt] at h2
        obtain ⟨hne, hsym, hlast, c0, hc0, hc0dig⟩ := jsonCore_facts (c :: rest) r hInt h2
        exact ⟨hne, hsym, hlast, c0, hc0, Or.inr hc0dig⟩

theorem numSym_props (c : Char) (h : numSym c = true) :
    jsWhitespace c = false ∧ jsonWs c = false ∧ c ≠ '\n' ∧ c ≠ '\r' ∧ c ≠ '\'' := by
  have h2 := h
  simp only [numSym, Bool.or_eq_true, decide_eq_true_eq] at h2
  rcases h2 with hd | hsym
  · simp only [isDig, decide_eq_true_eq] at hd
    refine ⟨?_, ?_, ?_, ?_, ?_⟩
    · simp only [jsWhitespace, decide_eq_false_iff_not]
      omega
    · simp only [jsonWs, decide_eq_false_iff_not]
      omega
    · intro hcc
      have hv : c.toNat = 10 := by rw [hcc]; rfl
      omega
    · intro hcc
      have hv : c.toNat = 13 := by rw [hcc]; rfl
      omega
    · intro hcc
      have hv : c.toNat = 39 := by rw [hcc]; rfl
      omega
  · rcases hsym with rfl | rfl | rfl | rfl | rfl <;>
      exact ⟨by decide, by decide, by decide, by decide, by decide⟩

theorem trim2_eq_self (p : Char → Bool) (l : List Char)
    (h1 : ∀ c, l.head? = some c → p c = false)
    (h2 : ∀ c, l.getLast? = some c → p c = false) :
    ((l.dropWhile p).reverse.dropWhile p).reverse = l := by
  rw [dropWhile_eq_self_of_head _ _ h1]
  rw [dropWhile_eq_self_of_head _ _ (by simpa [List.head?_reverse] using h2)]
  exact List.reverse_reverse l

theorem isJsonNumber_trim (l : List Char) (h : isJsonNumber l = true) :
    jsTrimL l = l ∧ jsonWsTrim l = l := by
  obtain ⟨hne, hsym, ⟨d, hd, hddig⟩, ⟨c0, hc0, hc0p⟩⟩ := isJsonNumber_facts l h
  have hHead : ∀ x, l.head? = some x → numSym x = true := by
    intro x hx
    exact hsym x (List.mem_of_mem_head? hx)
  have hLast : ∀ x, l.getLast? = some x → numSym x = true := by
    intro x hx
    exact hsym x (List.mem_of_mem_getLast? hx)
  constructor
  · exact trim2_eq_self jsWhitespace l
      (fun x hx => (numSym_props x (hHead x hx)).1)
      (fun x hx => (numSym_props x (hLast x hx)).1)
  · exact trim2_eq_self jsonWs l
      (fun x hx => (numSym_props x (hHead x hx)).2.1)
      (fun x hx => (numSym_props x (hLast x hx)).2.1)

theorem isNumberLike_of_grammar (l : List Char) (h : isJsonNumber l = true) :
    isNumberLike l = true := by
  unfold isNumberLike
  rw [show jsonWsTrim l = l from (isJsonNumber_trim l h).2]
  exact h

theorem isJsonNumber_ne_kw (l : List Char) (h : isJsonNumber l = true) :
    l ≠ ("true".toList) ∧ l ≠ ("false".toList) ∧ l ≠ ("null".toList) := by
  refine ⟨?_, ?_, ?_⟩ <;> intro he <;> rw [he] at h <;> exact absurd h (by decide)

theorem isJsonNumber_head_ne_quote (l : List Char) (h : isJsonNumber l = true) :
    l.head? ≠ some '\'' := by
  obtain ⟨hne, hsym, -, -⟩ := isJsonNumber_facts l h
  intro hx
  exact absurd rfl (numSym_props _ (hsym _ (List.mem_of_mem_head? hx))).2.2.2.2

/-! ## parseScalar inverts encodeScalar on well-formed scalars -/

theorem mk_toList (s : String) : String.mk s.toList = s := rfl

/-- Scalars that survive the encode/decode round trip: numbers carry a
grammar-valid canonical literal other than `-0`; strings carry no leading or
trailing JavaScript whitespace and no leading quote. -/
def scalarRTOk : Value → Bool
  | .null => true
  | .bool _ => true
  | .num s => isJsonNumber s.toList && decide (s ≠ "-0")
  | .str s => decide (jsTrimL s.toList = s.toList) && decide (s.toList.head? ≠ some '\'')
  | _ => false

theorem parseScalar_not_special (s : List Char)
    (hTrim : jsTrimL s = s) (hne : s ≠ []) (hq : s.head? ≠ some '\'') :
    parseScalar s =
      (if s = ("true".toList) then .bool true
       else if s = ("false".toList) then .bool false
       else if s = ("null".toList) then .null
       else if isNumberLike s then .num (String.mk (jsNumCanon s))
       else .str (String.mk s)) := by
  cases s with
  | nil => exact absurd rfl hne
  | cons c rest =>
    have hc : c ≠ '\'' := by
      intro hcc
      rw [hcc] at hq
      exact hq rfl
    unfold parseScalar
    rw [hTrim]
    unfold parseScalarCore
    split
    · rename_i heq
      simp at heq
    · rename_i r2 heq
      simp only [List.cons.injEq] at heq
      exact absurd heq.1 hc
    · rfl

theorem isNumberLike_nil : isNumberLike ([] : List Char) = false := by decide

theorem parseScalar_quoted (l : List Char)
    (hTrimQ : jsTrimL ('\'' :: l) = '\'' :: l) :
    parseScalar ('\'' :: l) = .str (String.mk l) := by
  unfold parseScalar
  rw [hTrimQ]
  rfl

theorem toList_ne_of_ne (s t : String) (h : s ≠ t) : s.toList ≠ t.toList := by
  intro he
  exact h (by rw [← mk_toList s, ← mk_toList t, he])

theorem parseScalar_encodeScalar (v : Value) (h : scalarRTOk v = true) :
    parseScalar (encodeScalar v) = v := by
  match v with
  | .null => rfl
  | .bool true => rfl
  | .bool false => rfl
  | .num s =>
    simp only [scalarRTOk, Bool.and_eq_true, decide_eq_true_eq] at h
    obtain ⟨hg, h0⟩ := h
    obtain ⟨hne, -, -, -⟩ := isJsonNumber_facts s.toList hg
    have henc : encodeScalar (.num s) = s.toList := rfl
    rw [henc]
    rw [parseScalar_not_special s.toList (isJsonNumber_trim _ hg).1 hne
      (isJsonNumber_head_ne_quote _ hg)]
    obtain ⟨k1, k2, k3⟩ := isJsonNumber_ne_kw s.toList hg
    rw [if_neg k1, if_neg k2, if_neg k3, if_pos (isNumberLike_of_grammar _ hg)]
    rw [show jsNumCanon s.toList = s.toList from by
      unfold jsNumCanon
      rw [if_neg (show ¬(s.toList = ['-', '0']) from by
        simpa using toList_ne_of_ne s "-0" h0)]]
    rw [mk_toList]
  | .str s =>
    simp only [scalarRTOk, Bool.and_eq_true, decide_eq_true_eq] at h
    obtain ⟨hTrim, hq⟩ := h
    have henc : encodeScalar (.str s) =
        (if s.toList = ("true".toList) || s.toList = ("false".toList) ||
            s.toList = ("null".toList) || isNumberLike s.toList then
          '\'' :: s.toList
        else s.toList) := rfl
    rw [henc]
    by_cases hcond : (s.toList = ("true".toList) || s.toList = ("false".toList) ||
        s.toList = ("null".toList) || isNumberLike s.toList) = true
    · rw [if_pos hcond]
      have hsne : s.toList ≠ [] := by
        intro he
        rw [he] at hcond
        rw [isNumberLike_nil] at hcond
        simp at hcond
      have hTrimQ : jsTrimL ('\'' :: s.toList) = '\'' :: s.toList := by
        apply jsTrimL_eq_self
        · intro x hx
          simp only [List.head?_cons, Option.some.injEq] at hx
          rw [← hx]
          decide
        · intro x hx
          rw [show ('\'' :: s.toList) = ['\''] ++ s.toList from rfl,
            List.getLast?_append_of_ne_nil ['\''] hsne] at hx
          exact jsTrimL_self_getLast s.toList hTrim x hx
      rw [parseScalar_quoted s.toList hTrimQ]
      rfl
    · rw [if_neg hcond]
      by_cases hsnil : s.toList = []
      · have hs0 : s = "" := by rw [← mk_toList s, hsnil]
        rw [hs0]
        rfl
      · rw [parseScalar_not_special s.toList hTrim hsnil hq]
        simp only [Bool.or_eq_true, decide_eq_true_eq, not_or] at hcond
        obtain ⟨⟨⟨k1, k2⟩, k3⟩, k4⟩ := hcond
        rw [if_neg k1, if_neg k2, if_neg k3, if_neg (by simpa using k4)]
        rfl

theorem encodeScalar_trim (v : Value) (h : scalarRTOk v = true) :
    jsTrimL (encodeScalar v) = encodeScalar v := by
  match v with
  | .null => decide
  | .bool true => decide
  | .bool false => decide
  | .num s =>
    simp only [scalarRTOk, Bool.and_eq_true, decide_eq_true_eq] at h
    exact (isJsonNumber_trim s.toList h.1).1
  | .str s =>
    simp only [scalarRTOk, Bool.and_eq_true, decide_eq_true_eq] at h
    obtain ⟨hTrim, hq⟩ := h
    have henc : encodeScalar (.str s) =
        (if s.toList = ("true".toList) || s.toList = ("false".toList) ||
            s.toList = ("null".toList) || isNumberLike s.toList then
          '\'' :: s.toList
        else s.toList) := rfl
    rw [henc]
    by_cases hcond : (s.toList = ("true".toList) || s.toList = ("false".toList) ||
        s.toList = ("null".toList) || isNumberLike s.toList) = true
    · rw [if_pos hcond]
      have hsne : s.toList ≠ [] := by
        intro he
        rw [he] at hcond
        rw [isNumberLike_nil] at hcond
        simp at hcond
      apply jsTrimL_eq_self
      · intro x hx
        simp only [List.head?_cons, Option.some.injEq] at hx
        rw [← hx]
        decide
      · intro x hx
        rw [show ('\'' :: s.toList) = ['\''] ++ s.toList from rfl,
          List.getLast?_append_of_ne_nil ['\''] hsne] at hx
        exact jsTrimL_self_getLast s.toList hTrim x hx
    · rw [if_neg hcond]
      exact hTrim

/-! ## Stepping the parser -/

theorem finalize_ok_rest (aO : List (String × Value)) (aA : Option (List Value))
    (r : List (Nat × List Char)) (v : Value) (rest' : List (Nat × List Char))
    (h : finalize aO aA r = .ok (v, rest')) : rest' = r := by
  unfold finalize at h
  split at h
  · split at h
    · simp only [Except.ok.injEq, Prod.mk.injEq] at h
      exact h.2.symm
    · exact absurd h (by simp)
  · simp only [Except.ok.injEq, Prod.mk.injEq] at h
    exact h.2.symm

theorem collectML_suffix (ci : Nat) (ls : List (Nat × List Char)) :
    (collectML ci ls).2 <:+ ls := by
  induction ls with
  | nil => exact List.nil_suffix
  | cons e rest ih =>
    obtain ⟨ci2, cs⟩ := e
    unfold collectML
    split
    · exact ih.trans (List.suffix_cons (ci2, cs) rest)
    · exact List.suffix_refl _

/-- Whatever a `parseBlock` call returns as unconsumed input is a suffix of
what it was given. -/
theorem parseLoop_suffix (fuel : Nat) :
    ∀ (lines : List (Nat × List Char)) (t : Nat) aO aA v rest',
      parseLoop fuel lines t aO aA = .ok (v, rest') → rest' <:+ lines := by
  induction fuel with
  | zero =>
    intro lines t aO aA v rest' h
    cases lines with
    | nil =>
      rw [show parseLoop 0 [] t aO aA = finalize aO aA [] from rfl] at h
      rw [finalize_ok_rest _ _ _ _ _ h]
    | cons e rest =>
      obtain ⟨i, s⟩ := e
      simp only [parseLoop] at h
      by_cases hit : i < t
      · rw [if_pos hit] at h
        rw [finalize_ok_rest _ _ _ _ _ h]
      · rw [if_neg hit] at h
        exact absurd h (by simp)
  | succ fuel ih =>
    intro lines t aO aA v rest' h
    cases lines with
    | nil =>
      rw [show parseLoop (fuel + 1) [] t aO aA = finalize aO aA [] from rfl] at h
      rw [finalize_ok_rest _ _ _ _ _ h]
    | cons e rest =>
      obtain ⟨i, s⟩ := e
      simp only [parseLoop] at h
      by_cases hit : i < t
      · rw [if_pos hit] at h
        rw [finalize_ok_rest _ _ _ _ _ h]
      · rw [if_neg hit] at h
        split at h
        · -- object-key line
          split at h
          · exact (ih _ _ _ _ _ _ h).trans (List.suffix_cons _ _)
          · split at h
            · exact (ih _ _ _ _ _ _ h).trans (List.suffix_cons _ _)
            · rename_i content hsp ni ns rest2
              by_cases hni : ni ≤ i
              · rw [if_pos hni] at h
                exact (ih _ _ _ _ _ _ h).trans (List.suffix_cons _ _)
              · rw [if_neg hni] at h
                by_cases hns : ¬ (structuralL ns = true)
                · rw [if_pos hns] at h
                  refine ((ih _ _ _ _ _ _ h).trans ?_).trans (List.suffix_cons _ _)
                  exact collectML_suffix ni ((ni, ns) :: rest2)
                · rw [if_neg hns] at h
                  cases hin : parseLoop fuel ((ni, ns) :: rest2) (i + 1) [] none with
                  | error e =>
                    rw [hin] at h
                    exact absurd h (by simp)
                  | ok p =>
                    obtain ⟨v2, rest2'⟩ := p
                    rw [hin] at h
                    have hsuf2 : rest2' <:+ (ni, ns) :: rest2 := ih _ _ _ _ _ _ hin
                    exact ((ih _ _ _ _ _ _ h).trans hsuf2).trans (List.suffix_cons _ _)
        · -- array-item line
          split at h
          · exact (ih _ _ _ _ _ _ h).trans (List.suffix_cons _ _)
          · split at h
            · exact (ih _ _ _ _ _ _ h).trans (List.suffix_cons _ _)
            · rename_i tailRaw htail ni ns rest2
              by_cases hni : ni ≤ i
              · rw [if_pos hni] at h
                exact (ih _ _ _ _ _ _ h).trans (List.suffix_cons _ _)
              · rw [if_neg hni] at h
                cases hin : parseLoop fuel ((ni, ns) :: rest2) (i + 1) [] none with
                | error e =>
                  rw [hin] at h
                  exact absurd h (by simp)
                | ok p =>
                  obtain ⟨v2, rest2'⟩ := p
                  rw [hin] at h
                  have hsuf2 : rest2' <:+ (ni, ns) :: rest2 := ih _ _ _ _ _ _ hin
                  exact ((ih _ _ _ _ _ _ h).trans hsuf2).trans (List.suffix_cons _ _)
        · exact absurd h (by simp)

theorem finalize_ne_fuelOut (aO : List (String × Value)) (aA : Option (List Value))
    (r : List (Nat × List Char)) : finalize aO aA r ≠ .error .fuelOut := by
  unfold finalize
  split
  · split <;> simp
  · simp

/-- With fuel exceeding the number of lines, the fuel artifact never fires. -/
theorem parseLoop_noFuelOut (fuel : Nat) :
    ∀ (lines : List (Nat × List Char)) (t : Nat) aO aA,
      lines.length < fuel → parseLoop fuel lines t aO aA ≠ .error .fuelOut := by
  induction fuel with
  | zero =>
    intro lines t aO aA hlen
    omega
  | succ fuel ih =>
    intro lines t aO aA hlen
    cases lines with
    | nil => exact finalize_ne_fuelOut aO aA []
    | cons e rest =>
      obtain ⟨i, s⟩ := e
      simp only [parseLoop]
      by_cases hit : i < t
      · rw [if_pos hit]
        exact finalize_ne_fuelOut aO aA _
      · rw [if_neg hit]
        have hrest : rest.length < fuel := by
          simp only [List.length_cons] at hlen
          omega
        split
        · split
          · exact ih _ _ _ _ hrest
          · split
            · exact ih _ _ _ _ (by simp; omega)
            · rename_i content hsp ni ns rest2
              by_cases hni : ni ≤ i
              · rw [if_pos hni]
                exact ih _ _ _ _ hrest
              · rw [if_neg hni]
                by_cases hns : ¬ (structuralL ns = true)
                · rw [if_pos hns]
                  have hclen : (collectML ni ((ni, ns) :: rest2)).2.length ≤
                      ((ni, ns) :: rest2).length :=
                    (collectML_suffix ni ((ni, ns) :: rest2)).length_le
                  exact ih _ _ _ _ (by omega)
                · rw [if_neg hns]
                  cases hin : parseLoop fuel ((ni, ns) :: rest2) (i + 1) [] none with
                  | error e =>
                    intro hcon
                    simp only [Except.error.injEq] at hcon
                    rw [hcon] at hin
                    exact ih _ _ _ _ hrest hin
                  | ok p =>
                    obtain ⟨v2, rest2'⟩ := p
                    have hsuf2 : rest2'.length ≤ ((ni, ns) :: rest2).length :=
                      (parseLoop_suffix fuel _ _ _ _ _ _ hin).length_le
                    exact ih _ _ _ _ (by omega)
        · split
          · exact ih _ _ _ _ hrest
          · split
            · exact ih _ _ _ _ (by simp; omega)
            · rename_i tailRaw htail ni ns rest2
              by_cases hni : ni ≤ i
              · rw [if_pos hni]
                exact ih _ _ _ _ hrest
              · rw [if_neg hni]
                cases hin : parseLoop fuel ((ni, ns) :: rest2) (i + 1) [] none with
                | error e =>
                  intro hcon
                  simp only [Except.error.injEq] at hcon
                  rw [hcon] at hin
                  exact ih _ _ _ _ hrest hin
                | ok p =>
                  obtain ⟨v2, rest2'⟩ := p
                  have hsuf2 : rest2'.length ≤ ((ni, ns) :: rest2).length :=
                    (parseLoop_suffix fuel _ _ _ _ _ _ hin).length_le
                  exact ih _ _ _ _ (by omega)
        · simp

theorem finalize_mixed (aO : List (String × Value)) (a : List Value)
    (r : List (Nat × List Char)) (hne : aO ≠ []) :
    finalize aO (some a) r = .error .mixed := by
  unfold finalize
  cases aO with
  | nil => exact absurd rfl hne
  | cons e t => rfl

/-- Once a block has accumulated both an object entry and an array accumulator,
no continuation of the loop ever returns a value: the block is doomed to fail
(with the mixed-container error, or an earlier structural error). -/
theorem parseLoop_mixed_no_ok (fuel : Nat) :
    ∀ (lines : List (Nat × List Char)) (t : Nat) aO a,
      aO ≠ [] → ∀ v rest', parseLoop fuel lines t aO (some a) ≠ .ok (v, rest') := by
  induction fuel with
  | zero =>
    intro lines t aO a hne v rest'
    cases lines with
    | nil =>
      rw [show parseLoop 0 [] t aO (some a) = finalize aO (some a) [] from rfl]
      rw [finalize_mixed aO a [] hne]
      simp
    | cons e rest =>
      obtain ⟨i, s⟩ := e
      simp only [parseLoop]
      by_cases hit : i < t
      · rw [if_pos hit, finalize_mixed aO a _ hne]
        simp
      · rw [if_neg hit]
        simp
  | succ fuel ih =>
    intro lines t aO a hne v rest'
    cases lines with
    | nil =>
      rw [show parseLoop (fuel + 1) [] t aO (some a) = finalize aO (some a) [] from rfl]
      rw [finalize_mixed aO a [] hne]
      simp
    | cons e rest =>
      obtain ⟨i, s⟩ := e
      simp only [parseLoop]
      by_cases hit : i < t
      · rw [if_pos hit, finalize_mixed aO a _ hne]
        simp
      · rw [if_neg hit]
        split
        · split
          · exact ih _ _ _ _ (jsInsert_ne_nil _ _ _) v rest'
          · split
            · exact ih _ _ _ _ (jsInsert_ne_nil _ _ _) v rest'
            · rename_i content hsp ni ns rest2
              by_cases hni : ni ≤ i
              · rw [if_pos hni]
                exact ih _ _ _ _ (jsInsert_ne_nil _ _ _) v rest'
              · rw [if_neg hni]
                by_cases hns : ¬ (structuralL ns = true)
                · rw [if_pos hns]
                  exact ih _ _ _ _ (jsInsert_ne_nil _ _ _) v rest'
                · rw [if_neg hns]
                  cases hin : parseLoop fuel ((ni, ns) :: rest2) (i + 1) [] none with
                  | error e => simp
                  | ok p =>
                    obtain ⟨v2, rest2'⟩ := p
                    exact ih _ _ _ _ (jsInsert_ne_nil _ _ _) v rest'
        · split
          · exact ih _ _ _ _ hne v rest'
          · split
            · exact ih _ _ _ _ hne v rest'
            · rename_i tailRaw htail ni ns rest2
              by_cases hni : ni ≤ i
              · rw [if_pos hni]
                exact ih _ _ _ _ hne v rest'
              · rw [if_neg hni]
                cases hin : parseLoop fuel ((ni, ns) :: rest2) (i + 1) [] none with
                | error e => simp
                | ok p =>
                  obtain ⟨v2, rest2'⟩ := p
                  exact ih _ _ _ _ hne v rest'
        · simp

theorem step_dot_inline (fuel i t : Nat) (k vs : List Char)
    (rest : List (Nat × List Char)) (aO : List (String × Value)) (aA : Option (List Value))
    (hti : ¬ i < t) (hk : ' ' ∉ k) :
    parseLoop (fuel + 1) ((i, '.' :: (k ++ ' ' :: vs)) :: rest) t aO aA =
      parseLoop fuel rest t (jsInsert aO (String.mk k) (parseScalar vs)) aA := by
  simp only [parseLoop]
  rw [if_neg hti, splitFirstSpace_append k vs hk]

theorem step_dot_bare_nil (fuel i t : Nat) (k : List Char)
    (aO : List (String × Value)) (aA : Option (List Value))
    (hti : ¬ i < t) (hk : ' ' ∉ k) :
    parseLoop (fuel + 1) [(i, '.' :: k)] t aO aA =
      parseLoop fuel [] t (jsInsert aO (String.mk k) (.obj [])) aA := by
  simp only [parseLoop]
  rw [if_neg hti, splitFirstSpace_of_no_space k hk]

theorem step_dot_bare_le (fuel i t ni : Nat) (k ns : List Char)
    (rest2 : List (Nat × List Char)) (aO : List (String × Value)) (aA : Option (List Value))
    (hti : ¬ i < t) (hk : ' ' ∉ k) (hni : ni ≤ i) :
    parseLoop (fuel + 1) ((i, '.' :: k) :: (ni, ns) :: rest2) t aO aA =
      parseLoop fuel ((ni, ns) :: rest2) t (jsInsert aO (String.mk k) (.obj [])) aA := by
  simp only [parseLoop]
  rw [if_neg hti, splitFirstSpace_of_no_space k hk, if_pos hni]

theorem step_dot_multiline (fuel i t ni : Nat) (k ns : List Char)
    (rest2 : List (Nat × List Char)) (aO : List (String × Value)) (aA : Option (List Value))
    (hti : ¬ i < t) (hk : ' ' ∉ k) (hni : ¬ ni ≤ i) (hns : ¬ structuralL ns = true) :
    parseLoop (fuel + 1) ((i, '.' :: k) :: (ni, ns) :: rest2) t aO aA =
      parseLoop fuel (collectML ni ((ni, ns) :: rest2)).2 t
        (jsInsert aO (String.mk k)
          (.str (String.mk (joinNL (collectML ni ((ni, ns) :: rest2)).1)))) aA := by
  simp only [parseLoop]
  rw [if_neg hti, splitFirstSpace_of_no_space k hk, if_neg hni, if_pos hns]

theorem step_dot_nested_ok (fuel i t ni : Nat) (k ns : List Char)
    (rest2 rest2' : List (Nat × List Char)) (aO : List (String × Value))
    (aA : Option (List Value)) (v2 : Value)
    (hti : ¬ i < t) (hk : ' ' ∉ k) (hni : ¬ ni ≤ i) (hns : structuralL ns = true)
    (hin : parseLoop fuel ((ni, ns) :: rest2) (i + 1) [] none = .ok (v2, rest2')) :
    parseLoop (fuel + 1) ((i, '.' :: k) :: (ni, ns) :: rest2) t aO aA =
      parseLoop fuel rest2' t (jsInsert aO (String.mk k) v2) aA := by
  simp only [parseLoop]
  rw [if_neg hti, splitFirstSpace_of_no_space k hk, if_neg hni, if_neg (by simp [hns]), hin]

theorem step_dot_nested_err (fuel i t ni : Nat) (k ns : List Char)
    (rest2 : List (Nat × List Char)) (aO : List (String × Value))
    (aA : Option (List Value)) (e : PErr)
    (hti : ¬ i < t) (hk : ' ' ∉ k) (hni : ¬ ni ≤ i) (hns : structuralL ns = true)
    (hin : parseLoop fuel ((ni, ns) :: rest2) (i + 1) [] none = .error e) :
    parseLoop (fuel + 1) ((i, '.' :: k) :: (ni, ns) :: rest2) t aO aA = .error e := by
  simp only [parseLoop]
  rw [if_neg hti, splitFirstSpace_of_no_space k hk, if_neg hni, if_neg (by simp [hns]), hin]

theorem step_dash_inline (fuel i t : Nat) (tailRaw : List Char)
    (rest : List (Nat × List Char)) (aO : List (String × Value)) (aA : Option (List Value))
    (hti : ¬ i < t) (htail : jsTrimL tailRaw ≠ []) :
    parseLoop (fuel + 1) ((i, '-' :: tailRaw) :: rest) t aO aA =
      parseLoop fuel rest t aO (some (aA.getD [] ++ [parseScalar (jsTrimL tailRaw)])) := by
  simp only [parseLoop]
  rw [if_neg hti, if_pos htail]

theorem step_dash_bare_nil (fuel i t : Nat)
    (aO : List (String × Value)) (aA : Option (List Value)) (hti : ¬ i < t) :
    parseLoop (fuel + 1) [(i, ['-'])] t aO aA =
      parseLoop fuel [] t aO (some (aA.getD [] ++ [.obj []])) := by
  simp only [parseLoop]
  rw [if_neg hti, if_neg (by simp [jsTrimL])]

theorem step_dash_bare_le (fuel i t ni : Nat) (ns : List Char)
    (rest2 : List (Nat × List Char)) (aO : List (String × Value)) (aA : Option (List Value))
    (hti : ¬ i < t) (hni : ni ≤ i) :
    parseLoop (fuel + 1) ((i, ['-']) :: (ni, ns) :: rest2) t aO aA =
      parseLoop fuel ((ni, ns) :: rest2) t aO (some (aA.getD [] ++ [.obj []])) := by
  simp only [parseLoop]
  rw [if_neg hti, if_neg (by simp [jsTrimL]), if_pos hni]

theorem step_dash_nested_ok (fuel i t ni : Nat) (ns : List Char)
    (rest2 rest2' : List (Nat × List Char)) (aO : List (String × Value))
    (aA : Option (List Value)) (v2 : Value)
    (hti : ¬ i < t) (hni : ¬ ni ≤ i)
    (hin : parseLoop fuel ((ni, ns) :: rest2) (i + 1) [] none = .ok (v2, rest2')) :
    parseLoop (fuel + 1) ((i, ['-']) :: (ni, ns) :: rest2) t aO aA =
      parseLoop fuel rest2' t aO (some (aA.getD [] ++ [v2])) := by
  simp only [parseLoop]
  rw [if_neg hti, if_neg (by simp [jsTrimL]), if_neg hni, hin]

theorem step_dash_nested_err (fuel i t ni : Nat) (ns : List Char)
    (rest2 : List (Nat × List Char)) (aO : List (String × Value))
    (aA : Option (List Value)) (e : PErr)
    (hti : ¬ i < t) (hni : ¬ ni ≤ i)
    (hin : parseLoop fuel ((ni, ns) :: rest2) (i + 1) [] none = .error e) :
    parseLoop (fuel + 1) ((i, ['-']) :: (ni, ns) :: rest2) t aO aA = .error e := by
  simp only [parseLoop]
  rw [if_neg hti, if_neg (by simp [jsTrimL]), if_neg hni, hin]

theorem step_invalid (fuel i t : Nat) (s : List Char)
    (rest : List (Nat × List Char)) (aO : List (String × Value)) (aA : Option (List Value))
    (hti : ¬ i < t) (hs : structuralL s = false) :
    parseLoop (fuel + 1) ((i, s) :: rest) t aO aA = .error (.invalidLine i (String.mk s)) := by
  simp only [structuralL, Bool.or_eq_false_iff] at hs
  obtain ⟨hs1, hs2⟩ := hs
  simp only [parseLoop]
  rw [if_neg hti]
  cases s with
  | nil => rfl
  | cons c s2 =>
    have hc1 : c ≠ '.' := by
      intro hcc
      rw [hcc] at hs1
      simp [startsWithL] at hs1
    have hc2 : c ≠ '-' := by
      intro hcc
      rw [hcc] at hs2
      simp [startsWithL] at hs2
    split
    · rename_i heq
      simp only [List.cons.injEq] at heq
      exact absurd heq.1 hc1
    · rename_i heq
      simp only [List.cons.injEq] at heq
      exact absurd heq.1 hc2
    · rfl

/-! ## The serializable class: trees the encoder emits reversibly -/

/-- Keys that survive the `.key` line syntax and JavaScript property order:
no spaces (the key ends at the first space), no line breaks, and not an
integer-index string (those are reordered by JavaScript objects). -/
def keyOkB (k : String) : Bool :=
  k.toList.all (fun c => decide (c ≠ ' ' ∧ c ≠ '\n' ∧ c ≠ '\r')) && ! isArrayIndex k.toList

/-- Inline string scalars must be trim-stable (the decoder trims the value
part) and must not begin with the forced-string quote. -/
def inlineStrOkB (s : String) : Bool :=
  decide (jsTrimL s.toList = s.toList) && decide (s.toList.head? ≠ some '\'') &&
    decide (('\n' : Char) ∉ s.toList)

/-- A multiline-string segment must survive the tokenizer (non-blank, no
leading space, not a comment/header line), must not look structural, and must
not end in a carriage return. -/
def segOkB (seg : List Char) : Bool :=
  decide (seg ≠ []) && decide (seg.head? ≠ some ' ') && ! seg.all jsWhitespace &&
    ! structuralL seg && decide (seg.head? ≠ some '#') &&
    ! startsWithL ("!ARION".toList) seg && decide (seg.getLast? ≠ some '\r')

/-- Number values carry a grammar-valid canonical literal other than `-0`. -/
def numOkB (s : String) : Bool :=
  isJsonNumber s.toList && decide (s ≠ "-0")

mutual

/-- Values that round-trip in object-value position (multiline strings are
representable here). -/
def valOkB : Value → Bool
  | .null => true
  | .bool _ => true
  | .num s => numOkB s
  | .str s =>
    if ('\n' : Char) ∈ s.toList then (splitNL s.toList).all segOkB
    else inlineStrOkB s
  | .arr items => ! items.isEmpty && itemsOkB items
  | .obj es => entriesOkB es

/-- Values that round-trip in array-item position (the decoder cannot read a
multiline string back out of an array, and an empty inline string produces a
bare `-`). -/
def itemOkB : Value → Bool
  | .null => true
  | .bool _ => true
  | .num s => numOkB s
  | .str s => decide (('\n' : Char) ∉ s.toList) && decide (s ≠ "") && inlineStrOkB s
  | .arr items => ! items.isEmpty && itemsOkB items
  | .obj es => entriesOkB es

def entriesOkB : List (String × Value) → Bool
  | [] => true
  | (k, v) :: es =>
    keyOkB k && es.all (fun e => decide (e.1 ≠ k)) && valOkB v && entriesOkB es

def itemsOkB : List Value → Bool
  | [] => true
  | v :: vs => itemOkB v && itemsOkB vs

end

/-- Documents whose root re-decodes: a nonempty object or a nonempty array of
serializable content. -/
def rootOkB : Value → Bool
  | .obj es => ! es.isEmpty && entriesOkB es
  | .arr items => ! items.isEmpty && itemsOkB items
  | _ => false

theorem valOkB_num_scalarRT (s : String) (h : valOkB (.num s) = true) :
    scalarRTOk (.num s) = true := by
  simp only [valOkB, numOkB, Bool.and_eq_true, decide_eq_true_eq] at h
  simp only [scalarRTOk, Bool.and_eq_true, decide_eq_true_eq]
  exact h

theorem valOkB_str_inline (s : String) (h : valOkB (.str s) = true)
    (hnl : ('\n' : Char) ∉ s.toList) : scalarRTOk (.str s) = true := by
  simp only [valOkB, if_neg hnl] at h
  simp only [inlineStrOkB, Bool.and_eq_true, decide_eq_true_eq] at h
  simp only [scalarRTOk, Bool.and_eq_true, decide_eq_true_eq]
  exact ⟨h.1.1, h.1.2⟩

theorem itemOkB_num_scalarRT (s : String) (h : itemOkB (.num s) = true) :
    scalarRTOk (.num s) = true := by
  simp only [itemOkB, numOkB, Bool.and_eq_true, decide_eq_true_eq] at h
  simp only [scalarRTOk, Bool.and_eq_true, decide_eq_true_eq]
  exact h

theorem itemOkB_str_facts (s : String) (h : itemOkB (.str s) = true) :
    scalarRTOk (.str s) = true ∧ ('\n' : Char) ∉ s.toList ∧ s ≠ "" := by
  simp only [itemOkB, inlineStrOkB, Bool.and_eq_true, decide_eq_true_eq] at h
  obtain ⟨⟨hnl, hne⟩, ⟨htrim, hq⟩, -⟩ := h
  refine ⟨?_, hnl, hne⟩
  simp only [scalarRTOk, Bool.and_eq_true, decide_eq_true_eq]
  exact ⟨htrim, hq⟩

/-! ## The multiline collector on encoded segment lines -/

theorem collectML_stop (ci : Nat) (after : List (Nat × List Char))
    (hafter : after = [] ∨ ∃ i2 s2 r2, after = (i2, s2) :: r2 ∧ i2 ≠ ci) :
    collectML ci after = ([], after) := by
  rcases hafter with rfl | ⟨i2, s2, r2, rfl, hne⟩
  · rfl
  · unfold collectML
    rw [if_neg]
    intro hcon
    exact hne hcon.1

theorem collectML_encoded (ci : Nat) (segs : List (List Char))
    (after : List (Nat × List Char))
    (hseg : ∀ seg ∈ segs, structuralL seg = false)
    (hafter : after = [] ∨ ∃ i2 s2 r2, after = (i2, s2) :: r2 ∧ i2 ≠ ci) :
    collectML ci (segs.map (fun g => (ci, g)) ++ after) = (segs, after) := by
  induction segs with
  | nil =>
    simp only [List.map_nil, List.nil_append]
    exact collectML_stop ci after hafter
  | cons seg segs2 ih =>
    simp only [List.map_cons, List.cons_append]
    unfold collectML
    rw [if_pos ⟨rfl, by simp [hseg seg (by simp)]⟩]
    rw [ih (fun g hg => hseg g (by simp [hg]))]

/-! ## Key and insertion facts -/

theorem keyOkB_no_space (k : String) (h : keyOkB k = true) : ' ' ∉ k.toList := by
  simp only [keyOkB, Bool.and_eq_true, List.all_eq_true, decide_eq_true_eq] at h
  intro hm
  exact (h.1 ' ' hm).1 rfl

theorem keyOkB_not_index (k : String) (h : keyOkB k = true) :
    isArrayIndex k.toList = false := by
  simp only [keyOkB, Bool.and_eq_true] at h
  simpa using h.2

theorem hasKey_append_single (l : List (String × Value)) (k : String) (v : Value)
    (k2 : String) : hasKey (l ++ [(k, v)]) k2 = (hasKey l k2 || decide (k = k2)) := by
  simp [hasKey, List.any_append]

theorem structuralL_dot (x : List Char) : structuralL ('.' :: x) = true := by
  simp [structuralL, startsWithL]

theorem structuralL_dash (x : List Char) : structuralL ('-' :: x) = true := by
  simp [structuralL, startsWithL]

/-! ## Heads of encoded blocks -/

theorem encO_cons_head (k : String) (v : Value) (es : List (String × Value)) (ind : Nat) :
    ∃ cs rest3, encodeObjEntries ((k, v) :: es) ind = (ind, '.' :: cs) :: rest3 := by
  match v with
  | .null =>
    simp only [encodeObjEntries, List.cons_append, List.nil_append]
    exact ⟨_, _, rfl⟩
  | .bool b =>
    simp only [encodeObjEntries, List.cons_append, List.nil_append]
    cases b
    · exact ⟨_, _, rfl⟩
    · exact ⟨_, _, rfl⟩
  | .num s =>
    simp only [encodeObjEntries, List.cons_append, List.nil_append]
    exact ⟨_, _, rfl⟩
  | .str s =>
    simp only [encodeObjEntries]
    by_cases hnl : ('\n' : Char) ∈ s.toList
    · rw [if_pos hnl]
      exact ⟨_, _, rfl⟩
    · rw [if_neg hnl]
      simp only [List.cons_append, List.nil_append]
      exact ⟨_, _, rfl⟩
  | .arr items =>
    simp only [encodeObjEntries]
    exact ⟨_, _, rfl⟩
  | .obj oes =>
    simp only [encodeObjEntries]
    exact ⟨_, _, rfl⟩

theorem encA_cons_head (item : Value) (its : List Value) (ind : Nat) :
    ∃ cs rest3, encodeArrItems (item :: its) ind = (ind, cs) :: rest3 ∧
      structuralL cs = true := by
  match item with
  | .null =>
    simp only [encodeArrItems, List.singleton_append]
    exact ⟨_, _, rfl, structuralL_dash _⟩
  | .bool b =>
    simp only [encodeArrItems, List.singleton_append]
    cases b
    · exact ⟨_, _, rfl, structuralL_dash _⟩
    · exact ⟨_, _, rfl, structuralL_dash _⟩
  | .num s =>
    simp only [encodeArrItems, List.singleton_append]
    exact ⟨_, _, rfl, structuralL_dash _⟩
  | .str s =>
    simp only [encodeArrItems]
    by_cases hnl : ('\n' : Char) ∈ s.toList
    · rw [if_pos hnl]
      exact ⟨_, _, rfl, structuralL_dash _⟩
    · rw [if_neg hnl]
      simp only [List.singleton_append]
      exact ⟨_, _, rfl, structuralL_dash _⟩
  | .arr items =>
    simp only [encodeArrItems]
    exact ⟨_, _, rfl, structuralL_dash _⟩
  | .obj oes =>
    simp only [encodeArrItems]
    exact ⟨_, _, rfl, structuralL_dash _⟩

/-! ## Well-formed rendered lines -/

/-- The conditions under which `tokLine` maps a rendered line
`spaces ++ content` back to `(indent, content)` and `splitRN` keeps it
intact. -/
def lineContentOk (c : List Char) : Bool :=
  decide (c ≠ []) && decide (c.head? ≠ some ' ') && ! c.all jsWhitespace &&
    ! startsWithL ("!ARION".toList) c && ! startsWithL ("#".toList) c &&
    decide (('\n' : Char) ∉ c) && decide (c.getLast? ≠ some '\r')

theorem startsWithL_cons_ne (p c : Char) (ps cs : List Char) (h : p ≠ c) :
    startsWithL (p :: ps) (c :: cs) = false := by
  simp only [startsWithL, Bool.and_eq_false_iff]
  left
  simpa using h

theorem trim_stable_getLast_ne_cr (l : List Char) (h : jsTrimL l = l) :
    l.getLast? ≠ some '\r' := by
  intro hx
  have := jsTrimL_self_getLast l h '\r' hx
  exact absurd this (by decide)

theorem trim_stable_no_nl_getLast (l : List Char) (h : l = [] ∨ jsTrimL l = l) :
    l.getLast? ≠ some '\r' := by
  rcases h with rfl | h
  · simp
  · exact trim_stable_getLast_ne_cr l h

theorem encodeScalar_no_nl (v : Value) (h : scalarRTOk v = true)
    (hstr : ∀ s, v = .str s → ('\n' : Char) ∉ s.toList) :
    ('\n' : Char) ∉ encodeScalar v := by
  match v with
  | .null => decide
  | .bool true => decide
  | .bool false => decide
  | .num s =>
    simp only [scalarRTOk, Bool.and_eq_true, decide_eq_true_eq] at h
    intro hm
    have hfacts := (isJsonNumber_facts s.toList h.1).2.1 '\n' hm
    exact absurd rfl (numSym_props '\n' hfacts).2.2.1
  | .str s =>
    have hs := hstr s rfl
    have henc : encodeScalar (.str s) =
        (if s.toList = ("true".toList) || s.toList = ("false".toList) ||
            s.toList = ("null".toList) || isNumberLike s.toList then
          '\'' :: s.toList
        else s.toList) := rfl
    rw [henc]
    split
    · intro hm
      rcases List.mem_cons.mp hm with hq | hm2
      · exact absurd hq (by decide)
      · exact hs hm2
    · exact hs

theorem lineOk_dotkey (k : String) (hk : keyOkB k = true) :
    lineContentOk ('.' :: k.toList) = true := by
  simp only [keyOkB, Bool.and_eq_true, List.all_eq_true, decide_eq_true_eq] at hk
  simp only [lineContentOk, Bool.and_eq_true, decide_eq_true_eq, Bool.not_eq_true']
  refine ⟨⟨⟨⟨⟨⟨by simp, by simp⟩, ?_⟩, ?_⟩, ?_⟩, ?_⟩, ?_⟩
  · simp only [List.all_cons, Bool.and_eq_false_iff]
    left
    decide
  · exact startsWithL_cons_ne '!' '.' _ _ (by decide)
  · exact startsWithL_cons_ne '#' '.' _ _ (by decide)
  · intro hm
    rcases List.mem_cons.mp hm with hq | hm2
    · exact absurd hq (by decide)
    · exact (hk.1 '\n' hm2).2.1 rfl
  · cases hkl : k.toList with
    | nil => simp [hkl]
    | cons a t =>
      rw [show ('.' :: a :: t) = ['.'] ++ (a :: t) from rfl,
        List.getLast?_append_of_ne_nil ['.'] (by simp)]
      intro hx
      refine (hk.1 '\r' ?_).2.2 rfl
      rw [hkl]
      exact List.mem_of_mem_getLast? hx

theorem lineOk_inline (c0 : Char) (k enc : List Char)
    (hc0 : c0 = '.' ∨ c0 = '-')
    (hkchar : ∀ x ∈ k, x ≠ '\n' ∧ x ≠ '\r')
    (hnl : ('\n' : Char) ∉ enc) (htr : enc = [] ∨ jsTrimL enc = enc) :
    lineContentOk (c0 :: (k ++ ' ' :: enc)) = true := by
  simp only [lineContentOk, Bool.and_eq_true, decide_eq_true_eq, Bool.not_eq_true']
  have hc0ne : c0 ≠ ' ' ∧ c0 ≠ '!' ∧ c0 ≠ '#' ∧ c0 ≠ '\n' ∧ jsWhitespace c0 = false := by
    rcases hc0 with rfl | rfl
    · exact ⟨by decide, by decide, by decide, by decide, by decide⟩
    · exact ⟨by decide, by decide, by decide, by decide, by decide⟩
  refine ⟨⟨⟨⟨⟨⟨by simp, by simp [hc0ne.1]⟩, ?_⟩, ?_⟩, ?_⟩, ?_⟩, ?_⟩
  · simp only [List.all_cons, Bool.and_eq_false_iff]
    left
    exact hc0ne.2.2.2.2
  · exact startsWithL_cons_ne '!' c0 _ _ (fun hx => hc0ne.2.1 hx.symm)
  · exact startsWithL_cons_ne '#' c0 _ _ (fun hx => hc0ne.2.2.1 hx.symm)
  · intro hm
    rcases List.mem_cons.mp hm with hq | hm2
    · exact hc0ne.2.2.2.1 hq.symm
    · rcases List.mem_append.mp hm2 with hma | hmb
      · exact (hkchar '\n' hma).1 rfl
      · rcases List.mem_cons.mp hmb with hsp | hmc
        · exact absurd hsp (by decide)
        · exact hnl hmc
  · rcases htr with rfl | htr
    · rw [show (c0 :: (k ++ [' '])) = (c0 :: k) ++ [' '] from by simp,
        List.getLast?_append_of_ne_nil (c0 :: k) (by simp)]
      simp
    · rcases hen : enc with _ | ⟨e0, et⟩
      · rw [show (c0 :: (k ++ [' '])) = (c0 :: k) ++ [' '] from by simp,
          List.getLast?_append_of_ne_nil (c0 :: k) (by simp)]
        simp
      · rw [show (c0 :: (k ++ ' ' :: e0 :: et)) = ((c0 :: k) ++ [' ']) ++ (e0 :: et) from
          by simp, List.getLast?_append_of_ne_nil ((c0 :: k) ++ [' ']) (by simp), ← hen]
        exact trim_stable_getLast_ne_cr enc htr

theorem lineOk_seg (seg : List Char) (hseg : segOkB seg = true)
    (hnl : ('\n' : Char) ∉ seg) : lineContentOk seg = true := by
  simp only [segOkB, Bool.and_eq_true, decide_eq_true_eq, Bool.not_eq_true'] at hseg
  obtain ⟨⟨⟨⟨⟨⟨hne, hsp⟩, hws⟩, hstr⟩, hhash⟩, harion⟩, hcr⟩ := hseg
  simp only [lineContentOk, Bool.and_eq_true, decide_eq_true_eq, Bool.not_eq_true']
  refine ⟨⟨⟨⟨⟨⟨hne, hsp⟩, hws⟩, harion⟩, ?_⟩, hnl⟩, hcr⟩
  cases seg with
  | nil => rfl
  | cons c cs =>
    refine startsWithL_cons_ne '#' c _ _ ?_
    intro hx
    apply hhash
    rw [← hx]
    rfl

theorem lineOk_dash : lineContentOk ['-'] = true := by decide

theorem keyOkB_chars (k : String) (h : keyOkB k = true) :
    ∀ x ∈ k.toList, x ≠ '\n' ∧ x ≠ '\r' := by
  simp only [keyOkB, Bool.and_eq_true, List.all_eq_true, decide_eq_true_eq] at h
  exact fun x hx => ⟨(h.1 x hx).2.1, (h.1 x hx).2.2⟩

theorem sizeOf_entries_tail (k : String) (v : Value) (es2 : List (String × Value)) :
    sizeOf es2 < sizeOf ((k, v) :: es2) := by
  simp

theorem sizeOf_entry_val_arr (k : String) (items : List Value) (es2 : List (String × Value)) :
    sizeOf items < sizeOf ((k, Value.arr items) :: es2) := by
  simp
  omega

theorem sizeOf_entry_val_obj (k : String) (oes : List (String × Value))
    (es2 : List (String × Value)) :
    sizeOf oes < sizeOf ((k, Value.obj oes) :: es2) := by
  simp
  omega

theorem sizeOf_items_tail (v : Value) (its : List Value) :
    sizeOf its < sizeOf (v :: its) := by
  simp

theorem sizeOf_item_arr (items : List Value) (its : List Value) :
    sizeOf items < sizeOf (Value.arr items :: its) := by
  simp
  omega

theorem sizeOf_item_obj (oes : List (String × Value)) (its : List Value) :
    sizeOf oes < sizeOf (Value.obj oes :: its) := by
  simp
  omega

/-- Every line the encoder emits for a serializable tree is well formed:
non-blank, no leading space in its content, not a comment or header, no
embedded newline, and not ending in a carriage return. -/
theorem encWf_main : ∀ n : Nat,
    (∀ (es : List (String × Value)) (ind : Nat), sizeOf es ≤ n → entriesOkB es = true →
      ∀ l ∈ encodeObjEntries es ind, lineContentOk l.2 = true) ∧
    (∀ (its : List Value) (ind : Nat), sizeOf its ≤ n → itemsOkB its = true →
      ∀ l ∈ encodeArrItems its ind, lineContentOk l.2 = true) := by
  intro n
  induction n using Nat.strong_induction_on with
  | _ n IH =>
    constructor
    · intro es ind hsz h l hl
      cases es with
      | nil => simp [encodeObjEntries] at hl
      | cons e es2 =>
        obtain ⟨k, v⟩ := e
        simp only [entriesOkB, Bool.and_eq_true] at h
        obtain ⟨⟨⟨h1, h2⟩, h3⟩, h4⟩ := h
        have htail : sizeOf es2 < n :=
          lt_of_lt_of_le (sizeOf_entries_tail k v es2) hsz
        have htailgo : ∀ l2 ∈ encodeObjEntries es2 ind, lineContentOk l2.2 = true :=
          (IH (sizeOf es2) htail).1 es2 ind (le_refl _) h4
        cases v with
        | null =>
          simp only [encodeObjEntries] at hl
          rcases List.mem_append.mp hl with hl1 | hl2
          · simp only [List.mem_singleton] at hl1
            subst hl1
            exact lineOk_inline '.' k.toList (encodeScalar .null) (Or.inl rfl)
              (keyOkB_chars k h1) (by decide) (Or.inr (by decide))
          · exact htailgo l hl2
        | bool b =>
          simp only [encodeObjEntries] at hl
          rcases List.mem_append.mp hl with hl1 | hl2
          · simp only [List.mem_singleton] at hl1
            subst hl1
            cases b
            · exact lineOk_inline '.' k.toList (encodeScalar (.bool false)) (Or.inl rfl)
                (keyOkB_chars k h1) (by decide) (Or.inr (by decide))
            · exact lineOk_inline '.' k.toList (encodeScalar (.bool true)) (Or.inl rfl)
                (keyOkB_chars k h1) (by decide) (Or.inr (by decide))
          · exact htailgo l hl2
        | num s =>
          simp only [encodeObjEntries] at hl
          rcases List.mem_append.mp hl with hl1 | hl2
          · simp only [List.mem_singleton] at hl1
            subst hl1
            have hrt := valOkB_num_scalarRT s h3
            exact lineOk_inline '.' k.toList (encodeScalar (.num s)) (Or.inl rfl)
              (keyOkB_chars k h1)
              (encodeScalar_no_nl _ hrt (fun s2 hs2 => nomatch hs2))
              (Or.inr (encodeScalar_trim _ hrt))
          · exact htailgo l hl2
        | str s =>
          simp only [encodeObjEntries] at hl
          rcases List.mem_append.mp hl with hl1 | hl2
          · by_cases hnl : ('\n' : Char) ∈ s.toList
            · rw [if_pos hnl] at hl1
              rcases List.mem_cons.mp hl1 with rfl | hl3
              · exact lineOk_dotkey k h1
              · obtain ⟨seg, hsegmem, rfl⟩ := List.mem_map.mp hl3
                have hsegok : segOkB seg = true := by
                  rw [show valOkB (.str s) =
                    (if ('\n' : Char) ∈ s.toList then (splitNL s.toList).all segOkB
                     else inlineStrOkB s) from rfl, if_pos hnl] at h3
                  exact List.all_eq_true.mp h3 seg hsegmem
                exact lineOk_seg seg hsegok (mem_splitNL_no_nl s.toList seg hsegmem)
            · rw [if_neg hnl] at hl1
              simp only [List.mem_singleton] at hl1
              subst hl1
              have hrt := valOkB_str_inline s h3 hnl
              exact lineOk_inline '.' k.toList (encodeScalar (.str s)) (Or.inl rfl)
                (keyOkB_chars k h1)
                (encodeScalar_no_nl _ hrt (fun s2 hs2 => by cases hs2; exact hnl))
                (Or.inr (encodeScalar_trim _ hrt))
          · exact htailgo l hl2
        | arr items =>
          simp only [encodeObjEntries] at hl
          rcases List.mem_append.mp hl with hl1 | hl2
          · rcases List.mem_cons.mp hl1 with rfl | hl3
            · exact lineOk_dotkey k h1
            · have hits : itemsOkB items = true := by
                rw [show valOkB (.arr items) = (! items.isEmpty && itemsOkB items) from rfl]
                  at h3
                exact (Bool.and_eq_true _ _ |>.mp h3).2
              exact (IH (sizeOf items)
                (lt_of_lt_of_le (sizeOf_entry_val_arr k items es2) hsz)).2 items (ind + 2)
                (le_refl _) hits l hl3
          · exact htailgo l hl2
        | obj oes =>
          simp only [encodeObjEntries] at hl
          rcases List.mem_append.mp hl with hl1 | hl2
          · rcases List.mem_cons.mp hl1 with rfl | hl3
            · exact lineOk_dotkey k h1
            · exact (IH (sizeOf oes)
                (lt_of_lt_of_le (sizeOf_entry_val_obj k oes es2) hsz)).1 oes (ind + 2)
                (le_refl _) h3 l hl3
          · exact htailgo l hl2
    · intro its ind hsz h l hl
      cases its with
      | nil => simp [encodeArrItems] at hl
      | cons item its2 =>
        simp only [itemsOkB, Bool.and_eq_true] at h
        obtain ⟨h1, h2⟩ := h
        have htail : sizeOf its2 < n :=
          lt_of_lt_of_le (sizeOf_items_tail item its2) hsz
        have htailgo : ∀ l2 ∈ encodeArrItems its2 ind, lineContentOk l2.2 = true :=
          (IH (sizeOf its2) htail).2 its2 ind (le_refl _) h2
        cases item with
        | null =>
          simp only [encodeArrItems] at hl
          rcases List.mem_append.mp hl with hl1 | hl2
          · simp only [List.mem_singleton] at hl1
            subst hl1
            exact lineOk_inline '-' [] (encodeScalar .null) (Or.inr rfl)
              (by simp) (by decide) (Or.inr (by decide))
          · exact htailgo l hl2
        | bool b =>
          simp only [encodeArrItems] at hl
          rcases List.mem_append.mp hl with hl1 | hl2
          · simp only [List.mem_singleton] at hl1
            subst hl1
            cases b
            · exact lineOk_inline '-' [] (encodeScalar (.bool false)) (Or.inr rfl)
                (by simp) (by decide) (Or.inr (by decide))
            · exact lineOk_inline '-' [] (encodeScalar (.bool true)) (Or.inr rfl)
                (by simp) (by decide) (Or.inr (by decide))
          · exact htailgo l hl2
        | num s =>
          simp only [encodeArrItems] at hl
          rcases List.mem_append.mp hl with hl1 | hl2
          · simp only [List.mem_singleton] at hl1
            subst hl1
            have hrt := itemOkB_num_scalarRT s h1
            exact lineOk_inline '-' [] (encodeScalar (.num s)) (Or.inr rfl)
              (by simp) (encodeScalar_no_nl _ hrt (fun s2 hs2 => nomatch hs2))
              (Or.inr (encodeScalar_trim _ hrt))
          · exact htailgo l hl2
        | str s =>
          obtain ⟨hrt, hnl, hne⟩ := itemOkB_str_facts s h1
          simp only [encodeArrItems] at hl
          rcases List.mem_append.mp hl with hl1 | hl2
          · rw [if_neg hnl] at hl1
            simp only [List.mem_singleton] at hl1
            subst hl1
            exact lineOk_inline '-' [] (encodeScalar (.str s)) (Or.inr rfl)
              (by simp) (encodeScalar_no_nl _ hrt (fun s2 hs2 => by cases hs2; exact hnl))
              (Or.inr (encodeScalar_trim _ hrt))
          · exact htailgo l hl2
        | arr items =>
          simp only [encodeArrItems] at hl
          rcases List.mem_append.mp hl with hl1 | hl2
          · rcases List.mem_cons.mp hl1 with rfl | hl3
            · exact lineOk_dash
            · have hits : itemsOkB items = true := by
                rw [show itemOkB (.arr items) = (! items.isEmpty && itemsOkB items) from rfl]
                  at h1
                exact (Bool.and_eq_true _ _ |>.mp h1).2
              exact (IH (sizeOf items)
                (lt_of_lt_of_le (sizeOf_item_arr items its2) hsz)).2 items (ind + 2)
                (le_refl _) hits l hl3
          · exact htailgo l hl2
        | obj oes =>
          simp only [encodeArrItems] at hl
          rcases List.mem_append.mp hl with hl1 | hl2
          · rcases List.mem_cons.mp hl1 with rfl | hl3
            · exact lineOk_dash
            · exact (IH (sizeOf oes)
                (lt_of_lt_of_le (sizeOf_item_obj oes its2) hsz)).1 oes (ind + 2)
                (le_refl _) h1 l hl3
          · exact htailgo l hl2

/-! ## Tokenizing an encoded document recovers the encoder lines -/

theorem tokLine_renderLine (i : Nat) (cs : List Char) (h : lineContentOk cs = true) :
    tokLine (renderLine (i, cs)) = some (i, cs) := by
  simp only [lineContentOk, Bool.and_eq_true, decide_eq_true_eq, Bool.not_eq_true'] at h
  obtain ⟨⟨⟨⟨⟨⟨h1, h2⟩, h3⟩, h4⟩, h5⟩, h6⟩, h7⟩ := h
  exact tokLine_render i cs h2 h3 h4 h5

theorem renderLine_raw_wf (i : Nat) (cs : List Char) (h : lineContentOk cs = true) :
    ('\n' : Char) ∉ renderLine (i, cs) ∧ (renderLine (i, cs)).getLast? ≠ some '\r' := by
  simp only [lineContentOk, Bool.and_eq_true, decide_eq_true_eq, Bool.not_eq_true'] at h
  obtain ⟨⟨⟨⟨⟨⟨h1, h2⟩, h3⟩, h4⟩, h5⟩, h6⟩, h7⟩ := h
  constructor
  · intro hm
    rcases List.mem_append.mp hm with hma | hmb
    · have := List.eq_of_mem_replicate hma
      exact absurd this (by decide)
    · exact h6 hmb
  · show ((spacesL i) ++ cs).getLast? ≠ some '\r'
    rw [List.getLast?_append_of_ne_nil (spacesL i) h1]
    exact h7

theorem filterMap_tokLine_render (ls : List (Nat × List Char))
    (h : ∀ l ∈ ls, lineContentOk l.2 = true) :
    (ls.map renderLine).filterMap tokLine = ls := by
  induction ls with
  | nil => rfl
  | cons l ls2 ih =>
    obtain ⟨i, cs⟩ := l
    simp only [List.map_cons, List.filterMap_cons]
    rw [tokLine_renderLine i cs (h (i, cs) (by simp))]
    rw [ih (fun l2 hl2 => h l2 (by simp [hl2]))]

theorem dumpsLines_wf (v : Value) (hok : rootOkB v = true) :
    ∀ l ∈ dumpsLines v, lineContentOk l.2 = true := by
  match v with
  | .obj es =>
    simp only [rootOkB, Bool.and_eq_true] at hok
    exact (encWf_main (sizeOf es)).1 es 0 (le_refl _) hok.2
  | .arr items =>
    simp only [rootOkB, Bool.and_eq_true] at hok
    exact (encWf_main (sizeOf items)).2 items 0 (le_refl _) hok.2

theorem dumpsLines_ne_nil (v : Value) (hok : rootOkB v = true) :
    dumpsLines v ≠ [] := by
  match v with
  | .obj es =>
    simp only [rootOkB, Bool.and_eq_true, Bool.not_eq_true'] at hok
    cases es with
    | nil => simp at hok
    | cons e es2 =>
      obtain ⟨k, v2⟩ := e
      obtain ⟨cs, rest3, heq⟩ := encO_cons_head k v2 es2 0
      show encodeObjEntries ((k, v2) :: es2) 0 ≠ []
      rw [heq]
      simp
  | .arr items =>
    simp only [rootOkB, Bool.and_eq_true, Bool.not_eq_true'] at hok
    cases items with
    | nil => simp at hok
    | cons item its2 =>
      obtain ⟨cs, rest3, heq, -⟩ := encA_cons_head item its2 0
      show encodeArrItems (item :: its2) 0 ≠ []
      rw [heq]
      simp

/-- Tokenizing the rendered document gives back exactly the encoder's
`(indent, content)` lines: the header lines are dropped and every body line
survives verbatim. -/
theorem tokenizeLines_dumps (v : Value) (header : Bool) (hok : rootOkB v = true) :
    tokenizeLines ((dumpsArion v header).toList) = dumpsLines v := by
  have hwf := dumpsLines_wf v hok
  have hne := dumpsLines_ne_nil v hok
  have hls :
      ∀ l ∈ ((if header then [("!ARION 1.0".toList), ([] : List Char)] else []) ++
        (dumpsLines v).map renderLine), ('\n' : Char) ∉ l ∧ l.getLast? ≠ some '\r' := by
    intro l hl
    rcases List.mem_append.mp hl with hh | hb
    · cases header with
      | true =>
        simp only [if_pos rfl] at hh
        rcases List.mem_cons.mp hh with rfl | hh2
        · exact ⟨by decide, by decide⟩
        · simp only [List.mem_singleton] at hh2
          subst hh2
          exact ⟨by simp, by simp⟩
      | false => simp at hh
    · obtain ⟨l2, hl2, rfl⟩ := List.mem_map.mp hb
      obtain ⟨i, cs⟩ := l2
      exact renderLine_raw_wf i cs (hwf (i, cs) hl2)
  have hlsne :
      ((if header then [("!ARION 1.0".toList), ([] : List Char)] else []) ++
        (dumpsLines v).map renderLine) ≠ [] := by
    cases header with
    | true => simp
    | false =>
      simp only [Bool.false_eq_true, if_false, List.nil_append, ne_eq, List.map_eq_nil_iff]
      exact hne
  show ((splitRN ((dumpsArion v header).toList)).filterMap tokLine) = dumpsLines v
  have htext : (dumpsArion v header).toList =
      joinNL ((if header then [("!ARION 1.0".toList), ([] : List Char)] else []) ++
        (dumpsLines v).map renderLine) ++ ['\n'] := rfl
  rw [htext, splitRN_joinNL _ hlsne hls, List.filterMap_append, List.filterMap_append]
  rw [filterMap_tokLine_render (dumpsLines v) hwf]
  cases header with
  | true =>
    rw [if_pos rfl]
    rw [show (([("!ARION 1.0".toList), ([] : List Char)]).filterMap tokLine) = [] from rfl]
    simp [List.filterMap_cons, tokLine_blank]
  | false =>
    simp [List.filterMap_cons, tokLine_blank]

/-! ## The round trip: parsing what the encoder emitted -/

/-- The head of `rest` (if any) terminates a block with threshold `t`. -/
def stopB : List (Nat × List Char) → Nat → Bool
  | [], _ => true
  | (i, _) :: _, t => decide (i < t)

theorem parseLoop_stop (fuel t : Nat) (rest : List (Nat × List Char))
    (aO : List (String × Value)) (aA : Option (List Value))
    (hstop : stopB rest t = true) (hfuel : rest.length < fuel) :
    parseLoop fuel rest t aO aA = finalize aO aA rest := by
  cases rest with
  | nil =>
    cases fuel with
    | zero => omega
    | succ f => rfl
  | cons e r =>
    obtain ⟨i, s⟩ := e
    have hit : i < t := by
      simp only [stopB, decide_eq_true_eq] at hstop
      exact hstop
    cases fuel with
    | zero => simp at hfuel
    | succ f =>
      simp only [parseLoop]
      rw [if_pos hit]

theorem jsInsert_app (aO : List (String × Value)) (k : String) (v : Value)
    (h1 : hasKey aO k = false) (h2 : keyOkB k = true) :
    jsInsert aO k v = aO ++ [(k, v)] :=
  jsInsert_fresh aO k v h1 (keyOkB_not_index k h2)

theorem hfresh_step (aO : List (String × Value)) (k : String) (v : Value)
    (es2 : List (String × Value))
    (hfresh : ∀ e ∈ (k, v) :: es2, hasKey aO e.1 = false)
    (hdist : es2.all (fun e => decide (e.1 ≠ k)) = true) :
    ∀ e ∈ es2, hasKey (aO ++ [(k, v)]) e.1 = false := by
  intro e he
  rw [hasKey_append_single]
  simp only [Bool.or_eq_false_iff]
  constructor
  · exact hfresh e (List.mem_cons_of_mem _ he)
  · simp only [decide_eq_false_iff_not]
    intro hkk
    have hne := List.all_eq_true.mp hdist e he
    simp only [decide_eq_true_eq] at hne
    exact hne hkk.symm

theorem encodeScalar_ne_nil (v : Value) (h : scalarRTOk v = true)
    (hne : ∀ s, v = .str s → s ≠ "") : encodeScalar v ≠ [] := by
  match v with
  | .null => decide
  | .bool true => decide
  | .bool false => decide
  | .num s =>
    simp only [scalarRTOk, Bool.and_eq_true, decide_eq_true_eq] at h
    exact (isJsonNumber_facts s.toList h.1).1
  | .str s =>
    have hs := hne s rfl
    have henc : encodeScalar (.str s) =
        (if s.toList = ("true".toList) || s.toList = ("false".toList) ||
            s.toList = ("null".toList) || isNumberLike s.toList then
          '\'' :: s.toList
        else s.toList) := rfl
    rw [henc]
    split
    · simp
    · intro hcon
      exact hs (by rw [← mk_toList s, hcon])

theorem segOkB_not_structural (seg : List Char) (h : segOkB seg = true) :
    structuralL seg = false := by
  simp only [segOkB, Bool.and_eq_true, Bool.not_eq_true'] at h
  exact h.1.1.1.2

theorem jsInsert_parse_enc (aO : List (String × Value)) (k : String) (v : Value)
    (hfreshk : hasKey aO k = false) (hkok : keyOkB k = true) (hrt : scalarRTOk v = true) :
    jsInsert aO (String.mk k.toList) (parseScalar (encodeScalar v)) = aO ++ [(k, v)] := by
  rw [mk_toList, parseScalar_encodeScalar v hrt, jsInsert_app aO k v hfreshk hkok]

/-- The lines following one encoded object entry: either nothing is left, or
the next line sits at an indent at most `ind` (the sibling entries at `ind`,
or the enclosing block's terminator below `t ≤ ind`). -/
theorem after_head_obj (es2 : List (String × Value)) (ind t : Nat)
    (rest : List (Nat × List Char)) (hstop : stopB rest t = true) (hle : t ≤ ind) :
    (encodeObjEntries es2 ind ++ rest) = [] ∨
      ∃ i2 s2 r2, (encodeObjEntries es2 ind ++ rest) = (i2, s2) :: r2 ∧ i2 ≤ ind := by
  cases es2 with
  | nil =>
    rw [show encodeObjEntries [] ind = [] from by simp [encodeObjEntries], List.nil_append]
    cases rest with
    | nil => left; rfl
    | cons e r =>
      obtain ⟨i2, s2⟩ := e
      right
      refine ⟨i2, s2, r, rfl, ?_⟩
      simp only [stopB, decide_eq_true_eq] at hstop
      omega
  | cons e es3 =>
    obtain ⟨k2, v2⟩ := e
    obtain ⟨cs, r3, heq⟩ := encO_cons_head k2 v2 es3 ind
    right
    exact ⟨ind, '.' :: cs, r3 ++ rest, by rw [heq]; rfl, le_refl ind⟩

theorem after_head_arr (its2 : List Value) (ind t : Nat)
    (rest : List (Nat × List Char)) (hstop : stopB rest t = true) (hle : t ≤ ind) :
    (encodeArrItems its2 ind ++ rest) = [] ∨
      ∃ i2 s2 r2, (encodeArrItems its2 ind ++ rest) = (i2, s2) :: r2 ∧ i2 ≤ ind := by
  cases its2 with
  | nil =>
    rw [show encodeArrItems [] ind = [] from by simp [encodeArrItems], List.nil_append]
    cases rest with
    | nil => left; rfl
    | cons e r =>
      obtain ⟨i2, s2⟩ := e
      right
      refine ⟨i2, s2, r, rfl, ?_⟩
      simp only [stopB, decide_eq_true_eq] at hstop
      omega
  | cons item its3 =>
    obtain ⟨cs, r3, heq, -⟩ := encA_cons_head item its3 ind
    right
    exact ⟨ind, cs, r3 ++ rest, by rw [heq]; rfl, le_refl ind⟩

theorem stopB_of_head_le (L : List (Nat × List Char)) (ind : Nat)
    (h : L = [] ∨ ∃ i2 s2 r2, L = (i2, s2) :: r2 ∧ i2 ≤ ind) :
    stopB L (ind + 1) = true := by
  rcases h with rfl | ⟨i2, s2, r2, rfl, hle⟩
  · rfl
  · simp only [stopB, decide_eq_true_eq]
    omega

theorem after_ne_of_le (L : List (Nat × List Char)) (ind : Nat)
    (h : L = [] ∨ ∃ i2 s2 r2, L = (i2, s2) :: r2 ∧ i2 ≤ ind) :
    L = [] ∨ ∃ i2 s2 r2, L = (i2, s2) :: r2 ∧ i2 ≠ ind + 2 := by
  rcases h with rfl | ⟨i2, s2, r2, rfl, hle⟩
  · left; rfl
  · right; exact ⟨i2, s2, r2, rfl, by omega⟩

theorem encO_nil_of_eq_nil (es : List (String × Value)) (ind : Nat)
    (h : encodeObjEntries es ind = []) : es = [] := by
  cases es with
  | nil => rfl
  | cons e es2 =>
    obtain ⟨k, v⟩ := e
    obtain ⟨cs, r3, heq⟩ := encO_cons_head k v es2 ind
    rw [heq] at h
    simp at h

theorem encA_nil_of_eq_nil (its : List Value) (ind : Nat)
    (h : encodeArrItems its ind = []) : its = [] := by
  cases its with
  | nil => rfl
  | cons item its2 =>
    obtain ⟨cs, r3, heq, -⟩ := encA_cons_head item its2 ind
    rw [heq] at h
    simp at h

/-- The core of the round-trip argument: a block emitted by the encoder parses
back to exactly the value it came from, consuming exactly the block's lines. -/
theorem rtMain : ∀ n : Nat,
    (∀ (es : List (String × Value)) (ind t : Nat) (rest : List (Nat × List Char))
        (aO : List (String × Value)) (fuel : Nat),
      sizeOf es ≤ n → entriesOkB es = true →
      (∀ e ∈ es, hasKey aO e.1 = false) →
      t ≤ ind → stopB rest t = true →
      (encodeObjEntries es ind ++ rest).length < fuel →
      parseLoop fuel (encodeObjEntries es ind ++ rest) t aO none =
        .ok (.obj (aO ++ es), rest)) ∧
    (∀ (its : List Value) (ind t : Nat) (rest : List (Nat × List Char))
        (aA : Option (List Value)) (fuel : Nat),
      sizeOf its ≤ n → itemsOkB its = true →
      t ≤ ind → stopB rest t = true →
      (aA.isSome = true ∨ its ≠ []) →
      (encodeArrItems its ind ++ rest).length < fuel →
      parseLoop fuel (encodeArrItems its ind ++ rest) t [] aA =
        .ok (.arr (aA.getD [] ++ its), rest)) := by
  intro n
  induction n using Nat.strong_induction_on with
  | _ n IH =>
    constructor
    · intro es ind t rest aO fuel hsz hok hfresh hle hstop hfuel
      have hti : ¬ ind < t := Nat.not_lt.mpr hle
      cases es with
      | nil =>
        rw [show encodeObjEntries [] ind = [] from by simp [encodeObjEntries],
          List.nil_append] at hfuel ⊢
        rw [parseLoop_stop fuel t rest aO none hstop hfuel]
        rw [show finalize aO none rest = .ok (.obj aO, rest) from rfl]
        simp
      | cons e es2 =>
        obtain ⟨k, v⟩ := e
        simp only [entriesOkB, Bool.and_eq_true] at hok
        obtain ⟨⟨⟨h1, h2⟩, h3⟩, h4⟩ := hok
        have hk : ' ' ∉ k.toList := keyOkB_no_space k h1
        have hfk : hasKey aO k = false := hfresh (k, v) (by simp)
        have hfresh2 : ∀ e2 ∈ es2, hasKey (aO ++ [(k, v)]) e2.1 = false :=
          hfresh_step aO k v es2 hfresh h2
        have hszes2 : sizeOf es2 < n := lt_of_lt_of_le (sizeOf_entries_tail k v es2) hsz
        have hafter := after_head_obj es2 ind t rest hstop hle
        cases v with
        | null =>
          simp only [encodeObjEntries, List.cons_append, List.singleton_append, List.nil_append] at hfuel ⊢
          cases fuel with
          | zero => omega
          | succ f =>
            rw [step_dot_inline f ind t k.toList (encodeScalar .null)
              (encodeObjEntries es2 ind ++ rest) aO none hti hk]
            rw [jsInsert_parse_enc aO k .null hfk h1 rfl]
            have hIH := (IH (sizeOf es2) hszes2).1 es2 ind t rest (aO ++ [(k, .null)]) f
              (le_refl _) h4 hfresh2 hle hstop (by
                simp only [List.length_cons, List.length_append] at hfuel ⊢
                omega)
            simpa using hIH
        | bool b =>
          simp only [encodeObjEntries, List.cons_append, List.singleton_append, List.nil_append] at hfuel ⊢
          cases fuel with
          | zero => omega
          | succ f =>
            rw [step_dot_inline f ind t k.toList (encodeScalar (.bool b))
              (encodeObjEntries es2 ind ++ rest) aO none hti hk]
            rw [jsInsert_parse_enc aO k (.bool b) hfk h1 (by cases b <;> rfl)]
            have hIH := (IH (sizeOf es2) hszes2).1 es2 ind t rest (aO ++ [(k, .bool b)]) f
              (le_refl _) h4 hfresh2 hle hstop (by
                simp only [List.length_cons, List.length_append] at hfuel ⊢
                omega)
            simpa using hIH
        | num s =>
          have hrt : scalarRTOk (.num s) = true := valOkB_num_scalarRT s h3
          simp only [encodeObjEntries, List.cons_append, List.singleton_append, List.nil_append] at hfuel ⊢
          cases fuel with
          | zero => omega
          | succ f =>
            rw [step_dot_inline f ind t k.toList (encodeScalar (.num s))
              (encodeObjEntries es2 ind ++ rest) aO none hti hk]
            rw [jsInsert_parse_enc aO k (.num s) hfk h1 hrt]
            have hIH := (IH (sizeOf es2) hszes2).1 es2 ind t rest (aO ++ [(k, .num s)]) f
              (le_refl _) h4 hfresh2 hle hstop (by
                simp only [List.length_cons, List.length_append] at hfuel ⊢
                omega)
            simpa using hIH
        | str s =>
          by_cases hnl : ('\n' : Char) ∈ s.toList
          · -- multiline string entry
            have hsegall : ∀ seg ∈ splitNL s.toList, segOkB seg = true := by
              rw [show valOkB (.str s) =
                (if ('\n' : Char) ∈ s.toList then (splitNL s.toList).all segOkB
                 else inlineStrOkB s) from rfl, if_pos hnl] at h3
              exact List.all_eq_true.mp h3
            obtain ⟨seg0, segs2, hsplit⟩ := splitNL_exists_cons s.toList
            have hseg0 : segOkB seg0 = true := hsegall seg0 (by rw [hsplit]; simp)
            simp only [encodeObjEntries, if_pos hnl, List.cons_append,
              List.append_assoc] at hfuel ⊢
            rw [hsplit] at hfuel ⊢
            simp only [List.map_cons, List.cons_append] at hfuel ⊢
            cases fuel with
            | zero => omega
            | succ f =>
              rw [step_dot_multiline f ind t (ind + 2) k.toList seg0
                (List.map (fun seg => (ind + 2, seg)) segs2 ++
                  (encodeObjEntries es2 ind ++ rest)) aO none hti hk (by omega)
                (by simp [segOkB_not_structural seg0 hseg0])]
              have hL : ((ind + 2, seg0) ::
                  (List.map (fun seg => (ind + 2, seg)) segs2 ++
                    (encodeObjEntries es2 ind ++ rest))) =
                  (splitNL s.toList).map (fun seg => (ind + 2, seg)) ++
                    (encodeObjEntries es2 ind ++ rest) := by
                rw [hsplit]
                simp
              rw [hL, collectML_encoded (ind + 2) (splitNL s.toList)
                (encodeObjEntries es2 ind ++ rest)
                (fun seg hseg => segOkB_not_structural seg (hsegall seg hseg))
                (after_ne_of_le _ ind hafter)]
              rw [joinNL_splitNL, mk_toList, mk_toList]
              rw [jsInsert_app aO k (.str s) hfk h1]
              have hIH := (IH (sizeOf es2) hszes2).1 es2 ind t rest (aO ++ [(k, .str s)]) f
                (le_refl _) h4 hfresh2 hle hstop (by
                  simp only [List.length_cons, List.length_append,
                    List.length_map] at hfuel ⊢
                  omega)
              simpa using hIH
          · -- inline string entry
            have hrt : scalarRTOk (.str s) = true := valOkB_str_inline s h3 hnl
            simp only [encodeObjEntries, if_neg hnl, List.cons_append,
              List.singleton_append, List.nil_append] at hfuel ⊢
            cases fuel with
            | zero => omega
            | succ f =>
              rw [step_dot_inline f ind t k.toList (encodeScalar (.str s))
                (encodeObjEntries es2 ind ++ rest) aO none hti hk]
              rw [jsInsert_parse_enc aO k (.str s) hfk h1 hrt]
              have hIH := (IH (sizeOf es2) hszes2).1 es2 ind t rest (aO ++ [(k, .str s)]) f
                (le_refl _) h4 hfresh2 hle hstop (by
                  simp only [List.length_cons, List.length_append] at hfuel ⊢
                  omega)
              simpa using hIH
        | obj oes =>
          cases oes with
          | nil =>
            -- empty object value: bare key with look-ahead
            simp only [encodeObjEntries, List.cons_append, List.nil_append] at hfuel ⊢
            cases fuel with
            | zero => omega
            | succ f =>
              have hmid : parseLoop (f + 1)
                  ((ind, '.' :: k.toList) :: (encodeObjEntries es2 ind ++ rest)) t aO none =
                  parseLoop f (encodeObjEntries es2 ind ++ rest) t
                    (jsInsert aO (String.mk k.toList) (.obj [])) none := by
                rcases hafter with hnilL | ⟨i2, s2, r2, heqL, hleL⟩
                · rw [hnilL]
                  exact step_dot_bare_nil f ind t k.toList aO none hti hk
                · rw [heqL]
                  exact step_dot_bare_le f ind t i2 k.toList s2 r2 aO none hti hk hleL
              rw [hmid, mk_toList, jsInsert_app aO k (.obj []) hfk h1]
              have hIH := (IH (sizeOf es2) hszes2).1 es2 ind t rest (aO ++ [(k, .obj [])]) f
                (le_refl _) h4 hfresh2 hle hstop (by
                  simp only [List.length_cons, List.length_append] at hfuel ⊢
                  omega)
              simpa using hIH
          | cons o1 oes2 =>
            obtain ⟨k1, v1⟩ := o1
            obtain ⟨cs, r3, heq⟩ := encO_cons_head k1 v1 oes2 (ind + 2)
            simp only [encodeObjEntries, List.cons_append, List.append_assoc, List.nil_append] at hfuel ⊢
            rw [heq] at hfuel ⊢
            simp only [List.cons_append] at hfuel ⊢
            cases fuel with
            | zero => omega
            | succ f =>
              have hinner := (IH (sizeOf ((k1, v1) :: oes2))
                  (lt_of_lt_of_le (sizeOf_entry_val_obj k ((k1, v1) :: oes2) es2) hsz)).1
                ((k1, v1) :: oes2) (ind + 2) (ind + 1) (encodeObjEntries es2 ind ++ rest)
                [] f (le_refl _) h3 (by intro e2 he2; rfl) (by omega)
                (stopB_of_head_le _ ind hafter) (by
                  rw [heq]
                  simp only [List.length_cons, List.length_append] at hfuel ⊢
                  omega)
              rw [heq] at hinner
              simp only [List.cons_append, List.nil_append] at hinner
              rw [step_dot_nested_ok f ind t (ind + 2) k.toList ('.' :: cs)
                (r3 ++ (encodeObjEntries es2 ind ++ rest)) (encodeObjEntries es2 ind ++ rest)
                aO none (.obj ((k1, v1) :: oes2)) hti hk (by omega)
                (structuralL_dot cs) hinner]
              rw [mk_toList, jsInsert_app aO k (.obj ((k1, v1) :: oes2)) hfk h1]
              have hIH := (IH (sizeOf es2) hszes2).1 es2 ind t rest
                (aO ++ [(k, .obj ((k1, v1) :: oes2))]) f
                (le_refl _) h4 hfresh2 hle hstop (by
                  simp only [List.length_cons, List.length_append] at hfuel ⊢
                  omega)
              simpa using hIH
        | arr its3 =>
          have hits : (! its3.isEmpty && itemsOkB its3) = true := h3
          simp only [Bool.and_eq_true, Bool.not_eq_true'] at hits
          obtain ⟨hitsne, hitsok⟩ := hits
          cases its3 with
          | nil => simp at hitsne
          | cons item1 its4 =>
            obtain ⟨cs, r3, heq, hcsstr⟩ := encA_cons_head item1 its4 (ind + 2)
            simp only [encodeObjEntries, List.cons_append, List.append_assoc, List.nil_append] at hfuel ⊢
            rw [heq] at hfuel ⊢
            simp only [List.cons_append] at hfuel ⊢
            cases fuel with
            | zero => omega
            | succ f =>
              have hinner := (IH (sizeOf (item1 :: its4))
                  (lt_of_lt_of_le (sizeOf_entry_val_arr k (item1 :: its4) es2) hsz)).2
                (item1 :: its4) (ind + 2) (ind + 1) (encodeObjEntries es2 ind ++ rest)
                none f (le_refl _) hitsok (by omega)
                (stopB_of_head_le _ ind hafter) (Or.inr (by simp)) (by
                  rw [heq]
                  simp only [List.length_cons, List.length_append] at hfuel ⊢
                  omega)
              rw [heq] at hinner
              simp only [List.cons_append] at hinner
              rw [show (none : Option (List Value)).getD [] = [] from rfl,
                List.nil_append] at hinner
              rw [step_dot_nested_ok f ind t (ind + 2) k.toList cs
                (r3 ++ (encodeObjEntries es2 ind ++ rest)) (encodeObjEntries es2 ind ++ rest)
                aO none (.arr (item1 :: its4)) hti hk (by omega) hcsstr hinner]
              rw [mk_toList, jsInsert_app aO k (.arr (item1 :: its4)) hfk h1]
              have hIH := (IH (sizeOf es2) hszes2).1 es2 ind t rest
                (aO ++ [(k, .arr (item1 :: its4))]) f
                (le_refl _) h4 hfresh2 hle hstop (by
                  simp only [List.length_cons, List.length_append] at hfuel ⊢
                  omega)
              simpa using hIH
    · intro its ind t rest aA fuel hsz hok hle hstop hreq hfuel
      have hti : ¬ ind < t := Nat.not_lt.mpr hle
      cases its with
      | nil =>
        obtain ⟨a, rfl⟩ : ∃ a, aA = some a := by
          rcases hreq with hsome | hne
          · exact Option.isSome_iff_exists.mp hsome
          · exact absurd rfl hne
        rw [show encodeArrItems [] ind = [] from by simp [encodeArrItems],
          List.nil_append] at hfuel ⊢
        rw [parseLoop_stop fuel t rest [] (some a) hstop hfuel]
        rw [show finalize [] (some a) rest = .ok (.arr a, rest) from rfl]
        simp
      | cons item its2 =>
        simp only [itemsOkB, Bool.and_eq_true] at hok
        obtain ⟨h1, h2⟩ := hok
        have hszits2 : sizeOf its2 < n := lt_of_lt_of_le (sizeOf_items_tail item its2) hsz
        have hafter := after_head_arr its2 ind t rest hstop hle
        cases item with
        | null =>
          simp only [encodeArrItems, List.cons_append, List.singleton_append, List.nil_append] at hfuel ⊢
          cases fuel with
          | zero => omega
          | succ f =>
            rw [step_dash_inline f ind t (' ' :: encodeScalar .null)
              (encodeArrItems its2 ind ++ rest) [] aA hti (by decide)]
            rw [show jsTrimL (' ' :: encodeScalar .null) = encodeScalar .null from by decide]
            rw [show parseScalar (encodeScalar .null) = .null from rfl]
            have hIH := (IH (sizeOf its2) hszits2).2 its2 ind t rest
              (some (aA.getD [] ++ [.null])) f
              (le_refl _) h2 hle hstop (Or.inl rfl) (by
                simp only [List.length_cons, List.length_append] at hfuel ⊢
                omega)
            simpa using hIH
        | bool b =>
          simp only [encodeArrItems, List.cons_append, List.singleton_append, List.nil_append] at hfuel ⊢
          cases fuel with
          | zero => omega
          | succ f =>
            rw [step_dash_inline f ind t (' ' :: encodeScalar (.bool b))
              (encodeArrItems its2 ind ++ rest) [] aA hti (by cases b <;> decide)]
            rw [show jsTrimL (' ' :: encodeScalar (.bool b)) = encodeScalar (.bool b) from by
              cases b <;> decide]
            rw [show parseScalar (encodeScalar (.bool b)) = .bool b from by cases b <;> rfl]
            have hIH := (IH (sizeOf its2) hszits2).2 its2 ind t rest
              (some (aA.getD [] ++ [.bool b])) f
              (le_refl _) h2 hle hstop (Or.inl rfl) (by
                simp only [List.length_cons, List.length_append] at hfuel ⊢
                omega)
            simpa using hIH
        | num s =>
          have hrt : scalarRTOk (.num s) = true := itemOkB_num_scalarRT s h1
          have htr : jsTrimL (encodeScalar (.num s)) = encodeScalar (.num s) :=
            encodeScalar_trim _ hrt
          have hnt : encodeScalar (.num s) ≠ [] :=
            encodeScalar_ne_nil _ hrt (fun s2 hs2 => nomatch hs2)
          simp only [encodeArrItems, List.cons_append, List.singleton_append, List.nil_append] at hfuel ⊢
          cases fuel with
          | zero => omega
          | succ f =>
            rw [step_dash_inline f ind t (' ' :: encodeScalar (.num s))
              (encodeArrItems its2 ind ++ rest) [] aA hti (by
                rw [jsTrimL_cons_ws ' ' _ (by decide), htr]
                exact hnt)]
            rw [jsTrimL_cons_ws ' ' _ (by decide), htr,
              parseScalar_encodeScalar (.num s) hrt]
            have hIH := (IH (sizeOf its2) hszits2).2 its2 ind t rest
              (some (aA.getD [] ++ [.num s])) f
              (le_refl _) h2 hle hstop (Or.inl rfl) (by
                simp only [List.length_cons, List.length_append] at hfuel ⊢
                omega)
            simpa using hIH
        | str s =>
          obtain ⟨hrt, hnl, hne⟩ := itemOkB_str_facts s h1
          have htr : jsTrimL (encodeScalar (.str s)) = encodeScalar (.str s) :=
            encodeScalar_trim _ hrt
          have hnt : encodeScalar (.str s) ≠ [] :=
            encodeScalar_ne_nil _ hrt (fun s2 hs2 => by cases hs2; exact hne)
          simp only [encodeArrItems, if_neg hnl, List.cons_append,
            List.singleton_append, List.nil_append] at hfuel ⊢
          cases fuel with
          | zero => omega
          | succ f =>
            rw [step_dash_inline f ind t (' ' :: encodeScalar (.str s))
              (encodeArrItems its2 ind ++ rest) [] aA hti (by
                rw [jsTrimL_cons_ws ' ' _ (by decide), htr]
                exact hnt)]
            rw [jsTrimL_cons_ws ' ' _ (by decide), htr,
              parseScalar_encodeScalar (.str s) hrt]
            have hIH := (IH (sizeOf its2) hszits2).2 its2 ind t rest
              (some (aA.getD [] ++ [.str s])) f
              (le_refl _) h2 hle hstop (Or.inl rfl) (by
                simp only [List.length_cons, List.length_append] at hfuel ⊢
                omega)
            simpa using hIH
        | obj oes =>
          cases oes with
          | nil =>
            simp only [encodeArrItems, encodeObjEntries, List.cons_append, List.nil_append] at hfuel ⊢
            cases fuel with
            | zero => omega
            | succ f =>
              have hmid : parseLoop (f + 1)
                  ((ind, ['-']) :: (encodeArrItems its2 ind ++ rest)) t [] aA =
                  parseLoop f (encodeArrItems its2 ind ++ rest) t []
                    (some (aA.getD [] ++ [.obj []])) := by
                rcases hafter with hnilL | ⟨i2, s2, r2, heqL, hleL⟩
                · rw [hnilL]
                  exact step_dash_bare_nil f ind t [] aA hti
                · rw [heqL]
                  exact step_dash_bare_le f ind t i2 s2 r2 [] aA hti hleL
              rw [hmid]
              have hIH := (IH (sizeOf its2) hszits2).2 its2 ind t rest
                (some (aA.getD [] ++ [.obj []])) f
                (le_refl _) h2 hle hstop (Or.inl rfl) (by
                  simp only [List.length_cons, List.length_append] at hfuel ⊢
                  omega)
              simpa using hIH
          | cons o1 oes2 =>
            obtain ⟨k1, v1⟩ := o1
            obtain ⟨cs, r3, heq⟩ := encO_cons_head k1 v1 oes2 (ind + 2)
            simp only [encodeArrItems, List.cons_append, List.append_assoc, List.nil_append] at hfuel ⊢
            rw [heq] at hfuel ⊢
            simp only [List.cons_append] at hfuel ⊢
            cases fuel with
            | zero => omega
            | succ f =>
              have hinner := (IH (sizeOf ((k1, v1) :: oes2))
                  (lt_of_lt_of_le (sizeOf_item_obj ((k1, v1) :: oes2) its2) hsz)).1
                ((k1, v1) :: oes2) (ind + 2) (ind + 1) (encodeArrItems its2 ind ++ rest)
                [] f (le_refl _) h1 (by intro e2 he2; rfl) (by omega)
                (stopB_of_head_le _ ind hafter) (by
                  rw [heq]
                  simp only [List.length_cons, List.length_append] at hfuel ⊢
                  omega)
              rw [heq] at hinner
              simp only [List.cons_append, List.nil_append] at hinner
              rw [step_dash_nested_ok f ind t (ind + 2) ('.' :: cs)
                (r3 ++ (encodeArrItems its2 ind ++ rest)) (encodeArrItems its2 ind ++ rest)
                [] aA (.obj ((k1, v1) :: oes2)) hti (by omega) hinner]
              have hIH := (IH (sizeOf its2) hszits2).2 its2 ind t rest
                (some (aA.getD [] ++ [.obj ((k1, v1) :: oes2)])) f
                (le_refl _) h2 hle hstop (Or.inl rfl) (by
                  simp only [List.length_cons, List.length_append] at hfuel ⊢
                  omega)
              simpa using hIH
        | arr its3 =>
          have hits : (! its3.isEmpty && itemsOkB its3) = true := h1
          simp only [Bool.and_eq_true, Bool.not_eq_true'] at hits
          obtain ⟨hitsne, hitsok⟩ := hits
          cases its3 with
          | nil => simp at hitsne
          | cons item1 its4 =>
            obtain ⟨cs, r3, heq, hcsstr⟩ := encA_cons_head item1 its4 (ind + 2)
            simp only [encodeArrItems, List.cons_append, List.append_assoc, List.nil_append] at hfuel ⊢
            rw [heq] at hfuel ⊢
            simp only [List.cons_append] at hfuel ⊢
            cases fuel with
            | zero => omega
            | succ f =>
              have hinner := (IH (sizeOf (item1 :: its4))
                  (lt_of_lt_of_le (sizeOf_item_arr (item1 :: its4) its2) hsz)).2
                (item1 :: its4) (ind + 2) (ind + 1) (encodeArrItems its2 ind ++ rest)
                none f (le_refl _) hitsok (by omega)
                (stopB_of_head_le _ ind hafter) (Or.inr (by simp)) (by
                  rw [heq]
                  simp only [List.length_cons, List.length_append] at hfuel ⊢
                  omega)
              rw [heq] at hinner
              simp only [List.cons_append] at hinner
              rw [show (none : Option (List Value)).getD [] = [] from rfl,
                List.nil_append] at hinner
              rw [step_dash_nested_ok f ind t (ind + 2) cs
                (r3 ++ (encodeArrItems its2 ind ++ rest)) (encodeArrItems its2 ind ++ rest)
                [] aA (.arr (item1 :: its4)) hti (by omega) hinner]
              have hIH := (IH (sizeOf its2) hszits2).2 its2 ind t rest
                (some (aA.getD [] ++ [.arr (item1 :: its4)])) f
                (le_refl _) h2 hle hstop (Or.inl rfl) (by
                  simp only [List.length_cons, List.length_append] at hfuel ⊢
                  omega)
              simpa using hIH

/-- Full round trip: any value in the serializable class decodes back to itself
from its own dump, with or without the header. -/
theorem loads_dumps_id (v : Value) (hok : rootOkB v = true) (hd : Bool) :
    loadsArion (dumpsArion v hd) = .ok v := by
  have htok := tokenizeLines_dumps v hd hok
  simp only [loadsArion, htok]
  cases v with
  | obj es =>
    have hok2 : (! es.isEmpty && entriesOkB es) = true := hok
    simp only [Bool.and_eq_true, Bool.not_eq_true'] at hok2
    obtain ⟨hne, hesok⟩ := hok2
    cases es with
    | nil => simp at hne
    | cons e es2 =>
      obtain ⟨k, v2⟩ := e
      obtain ⟨cs, r3, heq⟩ := encO_cons_head k v2 es2 0
      have hrun := (rtMain (sizeOf ((k, v2) :: es2))).1 ((k, v2) :: es2) 0 0 [] []
        ((encodeObjEntries ((k, v2) :: es2) 0).length + 1) (le_refl _) hesok
        (fun e2 he2 => rfl) (le_refl 0) rfl
        (by rw [List.append_nil]; omega)
      rw [List.append_nil, List.nil_append] at hrun
      rw [show dumpsLines (Value.obj ((k, v2) :: es2)) =
        encodeObjEntries ((k, v2) :: es2) 0 from rfl, heq]
      show (match parseLoop (((0, '.' :: cs) :: r3).length + 1)
          ((0, '.' :: cs) :: r3) 0 [] none with
        | Except.error e => Except.error e
        | Except.ok (v, _) => Except.ok v) = Except.ok (Value.obj ((k, v2) :: es2))
      rw [← heq, hrun]
  | arr its =>
    have hok2 : (! its.isEmpty && itemsOkB its) = true := hok
    simp only [Bool.and_eq_true, Bool.not_eq_true'] at hok2
    obtain ⟨hne, hitsok⟩ := hok2
    cases its with
    | nil => simp at hne
    | cons item its2 =>
      obtain ⟨cs, r3, heq, -⟩ := encA_cons_head item its2 0
      have hrun := (rtMain (sizeOf (item :: its2))).2 (item :: its2) 0 0 [] none
        ((encodeArrItems (item :: its2) 0).length + 1) (le_refl _) hitsok
        (le_refl 0) rfl (Or.inr (by simp))
        (by rw [List.append_nil]; omega)
      rw [List.append_nil] at hrun
      rw [show (none : Option (List Value)).getD [] = [] from rfl,
        List.nil_append] at hrun
      rw [show dumpsLines (Value.arr (item :: its2)) =
        encodeArrItems (item :: its2) 0 from rfl, heq]
      show (match parseLoop (((0, cs) :: r3).length + 1)
          ((0, cs) :: r3) 0 [] none with
        | Except.error e => Except.error e
        | Except.ok (v, _) => Except.ok v) = Except.ok (Value.arr (item :: its2))
      rw [← heq, hrun]
  | null => simp [rootOkB] at hok
  | bool b => simp [rootOkB] at hok
  | num s => simp [rootOkB] at hok
  | str s => simp [rootOkB] at hok

/-! ## The spec-worded scalar resolver (for the priority-order refinement) -/

theorem trimStable_head_not_ws (l : List Char) (h : jsTrimL l = l) (x : Char)
    (hx : l.head? = some x) : jsWhitespace x = false := by
  by_contra hws
  rw [Bool.not_eq_false] at hws
  cases l with
  | nil => simp at hx
  | cons a t =>
    have hax : a = x := by simpa using hx
    subst hax
    have hdrop : (a :: t).dropWhile jsWhitespace = t.dropWhile jsWhitespace := by
      simp [List.dropWhile_cons, hws]
    have hlen : (jsTrimL (a :: t)).length ≤ t.length := by
      rw [jsTrimL, hdrop]
      calc ((t.dropWhile jsWhitespace).reverse.dropWhile jsWhitespace).reverse.length
          ≤ (t.dropWhile jsWhitespace).length := by
            rw [List.length_reverse]
            calc ((t.dropWhile jsWhitespace).reverse.dropWhile jsWhitespace).length
                ≤ (t.dropWhile jsWhitespace).reverse.length :=
                  (List.dropWhile_suffix _).length_le
              _ = (t.dropWhile jsWhitespace).length := List.length_reverse _
        _ ≤ t.length := (List.dropWhile_suffix _).length_le
    rw [h] at hlen
    simp at hlen

theorem trimStable_last_not_ws (l : List Char) (h : jsTrimL l = l) (x : Char)
    (hx : l.getLast? = some x) : jsWhitespace x = false := by
  by_contra hws
  rw [Bool.not_eq_false] at hws
  have hlne : l ≠ [] := by intro he; rw [he] at hx; simp at hx
  by_cases hdne : l.dropWhile jsWhitespace = []
  · have hnil : jsTrimL l = [] := by rw [jsTrimL, hdne]; rfl
    rw [h] at hnil
    exact hlne hnil
  · have hlast : (l.dropWhile jsWhitespace).getLast? = some x := by
      obtain ⟨t, ht⟩ := List.dropWhile_suffix (l := l) (p := jsWhitespace)
      rw [← ht] at hx
      rw [List.getLast?_append_of_ne_nil t hdne] at hx
      exact hx
    have hhead : (l.dropWhile jsWhitespace).reverse.head? = some x := by
      rw [List.head?_reverse]
      exact hlast
    obtain ⟨r2, hr2⟩ : ∃ r2, (l.dropWhile jsWhitespace).reverse = x :: r2 := by
      cases hrv : (l.dropWhile jsWhitespace).reverse with
      | nil => rw [hrv] at hhead; simp at hhead
      | cons y r2 =>
        rw [hrv] at hhead
        simp at hhead
        exact ⟨r2, by rw [hhead]⟩
    have hlen : (jsTrimL l).length < l.length := by
      rw [jsTrimL, hr2]
      have h1 : ((x :: r2).dropWhile jsWhitespace).length ≤ r2.length := by
        rw [show (x :: r2).dropWhile jsWhitespace = r2.dropWhile jsWhitespace from by
          simp [List.dropWhile_cons, hws]]
        exact (List.dropWhile_suffix _).length_le
      have h2 : r2.length + 1 = (l.dropWhile jsWhitespace).length := by
        have := congrArg List.length hr2
        simp at this
        omega
      have h3 : (l.dropWhile jsWhitespace).length ≤ l.length :=
        (List.dropWhile_suffix _).length_le
      rw [List.length_reverse]
      omega
    rw [h] at hlen
    omega

theorem jsonWs_le_jsWhitespace (c : Char) (h : jsonWs c = true) :
    jsWhitespace c = true := by
  simp only [jsonWs, decide_eq_true_eq] at h
  simp only [jsWhitespace, decide_eq_true_eq]
  omega

theorem jsonWsTrim_of_trimStable (l : List Char) (h : jsTrimL l = l) :
    jsonWsTrim l = l := by
  refine trim2_eq_self jsonWs l ?_ ?_
  · intro x hx
    by_contra hj
    rw [Bool.not_eq_false] at hj
    have hw := jsonWs_le_jsWhitespace x hj
    rw [trimStable_head_not_ws l h x hx] at hw
    exact Bool.false_ne_true hw
  · intro x hx
    by_contra hj
    rw [Bool.not_eq_false] at hj
    have hw := jsonWs_le_jsWhitespace x hj
    rw [trimStable_last_not_ws l h x hx] at hw
    exact Bool.false_ne_true hw

/-- The scalar resolution rules exactly as the specification words them, as an
ordered cascade of first-match-wins tests over an already-trimmed string:
empty, leading quote, the two booleans, null, JSON number literal, verbatim. -/
def specScalarResolve (s : List Char) : Value :=
  if s = [] then .str ""
  else if s.head? = some '\'' then .str (String.mk s.tail)
  else if s = ("true".toList) then .bool true
  else if s = ("false".toList) then .bool false
  else if s = ("null".toList) then .null
  else if isJsonNumber s then .num (String.mk (jsNumCanon s))
  else .str (String.mk s)

theorem isNumberLike_eq_grammar (s : List Char) (h : jsTrimL s = s) :
    isNumberLike s = isJsonNumber s := by
  rw [isNumberLike, jsonWsTrim_of_trimStable s h]

theorem parseScalar_eq_specResolve (s : List Char) (h : jsTrimL s = s) :
    parseScalar s = specScalarResolve s := by
  cases s with
  | nil => rfl
  | cons c rest =>
    by_cases hq : c = '\''
    · subst hq
      rw [parseScalar, h]
      rfl
    · rw [parseScalar_not_special (c :: rest) h (by simp) (by simp [hq]),
        isNumberLike_eq_grammar (c :: rest) h]
      rw [specScalarResolve, if_neg (show ¬(c :: rest = []) by simp),
        if_neg (show ¬((c :: rest).head? = some '\'') by simp [hq])]

/-! ## Error classification: every decode error names a real tokenized line -/

theorem finalize_error_mixed (aO : List (String × Value)) (aA : Option (List Value))
    (r : List (Nat × List Char)) (e : PErr) (h : finalize aO aA r = .error e) :
    e = .mixed := by
  unfold finalize at h
  split at h
  · split at h
    · exact absurd h (by simp)
    · simp only [Except.error.injEq] at h
      exact h.symm
  · exact absurd h (by simp)

theorem parseLoop_err_line (fuel : Nat) :
    ∀ (lines : List (Nat × List Char)) (t : Nat) aO aA i2 s2,
      parseLoop fuel lines t aO aA = .error (.invalidLine i2 s2) →
      (i2, s2.toList) ∈ lines := by
  induction fuel with
  | zero =>
    intro lines t aO aA i2 s2 h
    cases lines with
    | nil =>
      rw [show parseLoop 0 [] t aO aA = finalize aO aA [] from rfl] at h
      exact absurd (finalize_error_mixed _ _ _ _ h) (by simp)
    | cons e rest =>
      obtain ⟨i, s⟩ := e
      simp only [parseLoop] at h
      by_cases hit : i < t
      · rw [if_pos hit] at h
        exact absurd (finalize_error_mixed _ _ _ _ h) (by simp)
      · rw [if_neg hit] at h
        exact absurd h (by simp)
  | succ fuel ih =>
    intro lines t aO aA i2 s2 h
    cases lines with
    | nil =>
      rw [show parseLoop (fuel + 1) [] t aO aA = finalize aO aA [] from rfl] at h
      exact absurd (finalize_error_mixed _ _ _ _ h) (by simp)
    | cons e rest =>
      obtain ⟨i, s⟩ := e
      simp only [parseLoop] at h
      by_cases hit : i < t
      · rw [if_pos hit] at h
        exact absurd (finalize_error_mixed _ _ _ _ h) (by simp)
      · rw [if_neg hit] at h
        split at h
        · split at h
          · exact List.mem_cons_of_mem _ (ih _ _ _ _ _ _ h)
          · split at h
            · exact List.mem_cons_of_mem _ (ih _ _ _ _ _ _ h)
            · rename_i content hsp ni ns rest2
              by_cases hni : ni ≤ i
              · rw [if_pos hni] at h
                exact List.mem_cons_of_mem _ (ih _ _ _ _ _ _ h)
              · rw [if_neg hni] at h
                by_cases hns : ¬ (structuralL ns = true)
                · rw [if_pos hns] at h
                  exact List.mem_cons_of_mem _
                    ((collectML_suffix ni ((ni, ns) :: rest2)).subset (ih _ _ _ _ _ _ h))
                · rw [if_neg hns] at h
                  cases hin : parseLoop fuel ((ni, ns) :: rest2) (i + 1) [] none with
                  | error e2 =>
                    rw [hin] at h
                    simp only [Except.error.injEq] at h
                    rw [h] at hin
                    exact List.mem_cons_of_mem _ (ih _ _ _ _ _ _ hin)
                  | ok p =>
                    obtain ⟨v2, rest2'⟩ := p
                    rw [hin] at h
                    exact List.mem_cons_of_mem _
                      ((parseLoop_suffix fuel _ _ _ _ _ _ hin).subset (ih _ _ _ _ _ _ h))
        · split at h
          · exact List.mem_cons_of_mem _ (ih _ _ _ _ _ _ h)
          · split at h
            · exact List.mem_cons_of_mem _ (ih _ _ _ _ _ _ h)
            · rename_i tailRaw htail ni ns rest2
              by_cases hni : ni ≤ i
              · rw [if_pos hni] at h
                exact List.mem_cons_of_mem _ (ih _ _ _ _ _ _ h)
              · rw [if_neg hni] at h
                cases hin : parseLoop fuel ((ni, ns) :: rest2) (i + 1) [] none with
                | error e2 =>
                  rw [hin] at h
                  simp only [Except.error.injEq] at h
                  rw [h] at hin
                  exact List.mem_cons_of_mem _ (ih _ _ _ _ _ _ hin)
                | ok p =>
                  obtain ⟨v2, rest2'⟩ := p
                  rw [hin] at h
                  exact List.mem_cons_of_mem _
                    ((parseLoop_suffix fuel _ _ _ _ _ _ hin).subset (ih _ _ _ _ _ _ h))
        · simp only [Except.error.injEq, PErr.invalidLine.injEq] at h
          obtain ⟨hi, hs⟩ := h
          rw [← hi, ← hs]
          exact List.mem_cons_self _ _

theorem loadsArion_error_class (text : String) (e : PErr)
    (h : loadsArion text = .error e) :
    e = .mixed ∨ ∃ i s, e = .invalidLine i s ∧ (i, s.toList) ∈ tokenizeLines text.toList := by
  simp only [loadsArion] at h
  split at h
  · exact absurd h (by simp)
  · rename_i lines2 i0 s0 tail0 heq
    cases hp : parseLoop ((tokenizeLines text.toList).length + 1)
        (tokenizeLines text.toList) i0 [] none with
    | error e2 =>
      rw [hp] at h
      simp only [Except.error.injEq] at h
      subst h
      cases e2 with
      | mixed => exact Or.inl rfl
      | fuelOut =>
        exact absurd hp (parseLoop_noFuelOut _ _ _ _ _ (by omega))
      | invalidLine i3 s3 =>
        exact Or.inr ⟨i3, s3, rfl, parseLoop_err_line _ _ _ _ _ _ _ hp⟩
    | ok p =>
      rw [hp] at h
      obtain ⟨v2, r2⟩ := p
      exact absurd h (by simp)

/-! ## Support for the forced-quote law and the ignored-line classification -/

theorem encodeScalar_str_quoted (s : String)
    (hs : s = "true" ∨ s = "false" ∨ s = "null" ∨ isJsonNumber s.toList = true) :
    encodeScalar (.str s) = '\'' :: s.toList := by
  have hred : encodeScalar (.str s) =
      (if s.toList = ("true".toList) || s.toList = ("false".toList) ||
          s.toList = ("null".toList) || isNumberLike s.toList then
        '\'' :: s.toList
      else s.toList) := rfl
  rw [hred]
  rcases hs with rfl | rfl | rfl | hn
  · rfl
  · rfl
  · rfl
  · rw [if_pos (by
      simp only [Bool.or_eq_true]
      exact Or.inr (isNumberLike_of_grammar _ hn))]

theorem jsonNumber_no_nl (s : String) (hn : isJsonNumber s.toList = true) :
    ('\n' : Char) ∉ s.toList := by
  intro hmem
  obtain ⟨-, hsym, -, -⟩ := isJsonNumber_facts s.toList hn
  exact absurd (hsym _ hmem) (by decide)

theorem jsonNumber_head_not_quote (s : String) (hn : isJsonNumber s.toList = true) :
    s.toList.head? ≠ some '\'' := by
  intro hq
  obtain ⟨-, hsym, -, -⟩ := isJsonNumber_facts s.toList hn
  exact absurd (hsym _ (List.mem_of_mem_head? hq)) (by decide)

theorem valOkB_str_special (s : String)
    (hs : s = "true" ∨ s = "false" ∨ s = "null" ∨ isJsonNumber s.toList = true) :
    valOkB (.str s) = true := by
  rcases hs with rfl | rfl | rfl | hn
  · rfl
  · rfl
  · rfl
  · have hnl := jsonNumber_no_nl s hn
    rw [show valOkB (.str s) =
      (if ('\n' : Char) ∈ s.toList then (splitNL s.toList).all segOkB
       else inlineStrOkB s) from rfl, if_neg hnl]
    simp only [inlineStrOkB, Bool.and_eq_true, decide_eq_true_eq]
    exact ⟨⟨(isJsonNumber_trim s.toList hn).1, jsonNumber_head_not_quote s hn⟩, hnl⟩

theorem rootOkB_single (k : String) (v : Value) (hk : keyOkB k = true)
    (hv : valOkB v = true) : rootOkB (.obj [(k, v)]) = true := by
  rw [show rootOkB (.obj [(k, v)]) = (! ([(k, v)] : List (String × Value)).isEmpty &&
    entriesOkB [(k, v)]) from rfl]
  rw [show entriesOkB [(k, v)] = (keyOkB k &&
    ([] : List (String × Value)).all (fun e => decide (e.1 ≠ k)) && valOkB v &&
    entriesOkB []) from by simp [entriesOkB]]
  simp [hk, hv, entriesOkB]

theorem tokLine_none_of_ignored (seg : List Char)
    (h : seg.all jsWhitespace = true ∨
      startsWithL ("#".toList) (seg.dropWhile (fun c => c = ' ')) = true ∨
      startsWithL ("!ARION".toList) (seg.dropWhile (fun c => c = ' ')) = true) :
    tokLine seg = none := by
  by_cases hws : seg.all jsWhitespace
  · simp [tokLine, hws]
  · rcases h with h1 | h2 | h3
    · exact absurd h1 hws
    · have h2b : startsWithL ['#'] (List.dropWhile (fun c => decide (c = ' ')) seg) =
          true := by simpa using h2
      simp [tokLine, hws, h2b]
    · have h3b : startsWithL ['!', 'A', 'R', 'I', 'O', 'N']
          (List.dropWhile (fun c => decide (c = ' ')) seg) = true := by simpa using h3
      simp [tokLine, hws, h3b]

theorem loadsArion_ignored (text : String)
    (h : ∀ seg ∈ splitRN text.toList,
      seg.all jsWhitespace = true ∨
      startsWithL ("#".toList) (seg.dropWhile (fun c => c = ' ')) = true ∨
      startsWithL ("!ARION".toList) (seg.dropWhile (fun c => c = ' ')) = true) :
    loadsArion text = .ok .null := by
  have htok : tokenizeLines text.toList = [] := by
    rw [tokenizeLines]
    exact List.filterMap_eq_nil.mpr (fun seg hseg => tokLine_none_of_ignored seg (h seg hseg))
  rw [loadsArion, htok]

/-! ## The claims -/

/-- Claim C1 (amended): the round-trip law holds on the serializable class
rootOkB (nonempty objects and arrays of well-formed entries), not on every
Value: decoding the encoding returns the same tree, including object entry
order, for either header setting.  A top-level scalar breaks the law as
stated, because the encoder emits it as a one-item array block. -/
theorem arion_C1 (v : Value) (hok : rootOkB v = true) (hd : Bool) :
    loadsArion (dumpsArion v hd) = .ok v :=
  loads_dumps_id v hok hd

theorem arion_C1_witness :
    rootOkB (.obj [("a", Value.null)]) = true ∧
    loadsArion (dumpsArion (.obj [("a", Value.null)]) true) =
      .ok (.obj [("a", Value.null)]) := by
  have hroot : rootOkB (.obj [("a", Value.null)]) = true :=
    rootOkB_single "a" .null (by decide) (by simp [valOkB])
  exact ⟨hroot, arion_C1 _ hroot true⟩

theorem arion_C1_counterexample :
    loadsArion (dumpsArion .null true) = .ok (.arr [.null]) ∧
    Value.arr [.null] ≠ Value.null :=
  ⟨rfl, fun h => Value.noConfusion h⟩

/-- Claim C2 (amended): there is no dedicated tab-indentation error.  The
tokenizer counts only spaces as indentation and leaves a tab in the stripped
content; when such a line sits at structural position the parser rejects it
with the generic invalid-line error carrying the tab inside the content. -/
theorem arion_C2 (fuel i t : Nat) (s0 : List Char) (rest : List (Nat × List Char))
    (aO : List (String × Value)) (aA : Option (List Value)) (hti : ¬ i < t) :
    parseLoop (fuel + 1) ((i, '\t' :: s0) :: rest) t aO aA =
      .error (.invalidLine i (String.mk ('\t' :: s0))) :=
  step_invalid fuel i t ('\t' :: s0) rest aO aA hti rfl

theorem arion_C2_witness :
    ¬ (0 : Nat) < 0 ∧
    parseLoop 1 [(0, ['\t', 'x'])] 0 [] none =
      .error (.invalidLine 0 (String.mk ['\t', 'x'])) :=
  ⟨by decide, arion_C2 0 0 0 ['x'] [] [] none (by decide)⟩

theorem arion_C2_counterexample :
    loadsArion ".k\n  \tx" = .ok (.obj [("k", .str "\tx")]) ∧
    ∀ e : PErr, loadsArion ".k\n  \tx" ≠ .error e := by
  refine ⟨rfl, fun e h => ?_⟩
  rw [show loadsArion ".k\n  \tx" = .ok (.obj [("k", .str "\tx")]) from rfl] at h
  exact Except.noConfusion h

/-- Claim C3 (amended): decoded object entry order equals source declaration
order, and the encoder emits that same order, only when no key is a canonical
array index; the decoder inserts through a JavaScript object, which hoists
integer-like keys in front in ascending numeric order.  On the class rootOkB,
whose keys exclude array indices, the order law holds in both directions. -/
theorem arion_C3 (es : List (String × Value)) (hok : rootOkB (.obj es) = true)
    (hd : Bool) :
    loadsArion (dumpsArion (.obj es) hd) = .ok (.obj es) :=
  loads_dumps_id _ hok hd

theorem arion_C3_witness :
    rootOkB (.obj [("b", Value.num "1"), ("a", Value.null)]) = true ∧
    loadsArion (dumpsArion (.obj [("b", Value.num "1"), ("a", Value.null)]) true) =
      .ok (.obj [("b", Value.num "1"), ("a", Value.null)]) := by
  have hroot : rootOkB (.obj [("b", Value.num "1"), ("a", Value.null)]) = true := by
    simp [rootOkB, entriesOkB, valOkB]
    exact ⟨⟨by decide, by decide⟩, by decide⟩
  exact ⟨hroot, arion_C3 _ hroot true⟩

theorem arion_C3_counterexample :
    loadsArion ".b 1\n.2 x" = .ok (.obj [("2", .str "x"), ("b", .num "1")]) ∧
    ([("2", Value.str "x"), ("b", Value.num "1")].map Prod.fst) ≠ ["b", "2"] :=
  ⟨rfl, by decide⟩

/-- Claim C4: for a string equal to true, false, null, or a JSON number
literal, the encoder prefixes the forced-string quote marker, and decoding the
encoding returns the same string value, for any valid key. -/
theorem arion_C4 (k s : String) (hk : keyOkB k = true)
    (hs : s = "true" ∨ s = "false" ∨ s = "null" ∨ isJsonNumber s.toList = true) :
    encodeScalar (.str s) = '\'' :: s.toList ∧
    ∀ hd : Bool, loadsArion (dumpsArion (.obj [(k, .str s)]) hd) =
      .ok (.obj [(k, .str s)]) := by
  refine ⟨encodeScalar_str_quoted s hs, fun hd => ?_⟩
  exact loads_dumps_id _ (rootOkB_single k _ hk (valOkB_str_special s hs)) hd

theorem arion_C4_witness :
    keyOkB "k" = true ∧
    ("37" = "true" ∨ "37" = "false" ∨ "37" = "null" ∨
      isJsonNumber (("37" : String).toList) = true) ∧
    encodeScalar (.str "37") = '\'' :: ("37" : String).toList ∧
    loadsArion (dumpsArion (.obj [("k", .str "37")]) true) =
      .ok (.obj [("k", .str "37")]) := by
  have h := arion_C4 "k" "37" (by decide) (Or.inr (Or.inr (Or.inr (by decide))))
  exact ⟨by decide, Or.inr (Or.inr (Or.inr (by decide))), h.1, h.2 true⟩

/-- Claim C5 (amended): the multiline round trip preserves line content and
count only when no segment of the string is blank (and each segment survives
the tokenizer); encoded blank segments render as indentation-only lines, which
the tokenizer discards, so a string with an empty segment loses it. -/
theorem arion_C5 (k s : String) (hk : keyOkB k = true)
    (hnl : ('\n' : Char) ∈ s.toList)
    (hseg : (splitNL s.toList).all segOkB = true) (hd : Bool) :
    loadsArion (dumpsArion (.obj [(k, .str s)]) hd) = .ok (.obj [(k, .str s)]) := by
  refine loads_dumps_id _ (rootOkB_single k _ hk ?_) hd
  rw [show valOkB (.str s) =
    (if ('\n' : Char) ∈ s.toList then (splitNL s.toList).all segOkB
     else inlineStrOkB s) from rfl, if_pos hnl]
  exact hseg

theorem arion_C5_witness :
    keyOkB "k" = true ∧ ('\n' : Char) ∈ (("a\nb" : String).toList) ∧
    (splitNL (("a\nb" : String).toList)).all segOkB = true ∧
    loadsArion (dumpsArion (.obj [("k", .str "a\nb")]) true) =
      .ok (.obj [("k", .str "a\nb")]) :=
  ⟨by decide, by decide, by decide,
    arion_C5 "k" "a\nb" (by decide) (by decide) (by decide) true⟩

theorem arion_C5_counterexample :
    loadsArion (dumpsArion (.obj [("k", .str "a\n\nb")]) true) =
      .ok (.obj [("k", .str "a\nb")]) ∧
    ("a\nb" : String) ≠ "a\n\nb" ∧
    (splitNL (("a\n\nb" : String).toList)).length = 3 ∧
    (splitNL (("a\nb" : String).toList)).length = 2 := by
  refine ⟨?_, by decide, by decide, by decide⟩
  simp only [dumpsArion, dumpsLines, encodeObjEntries, encodeScalar]
  norm_num
  rfl

/-- Claim C6: a block that has accumulated both an object entry and an array
accumulator can never return a value, whatever lines follow, so a block mixing
key lines and item lines at one indent always fails; on whole documents both
orders of mixing end in the mixed-container error. -/
theorem arion_C6 :
    (∀ (fuel : Nat) (lines : List (Nat × List Char)) (t : Nat)
        (aO : List (String × Value)) (a : List Value), aO ≠ [] →
      ∀ v rest', parseLoop fuel lines t aO (some a) ≠ .ok (v, rest')) ∧
    loadsArion ".a 1\n- x" = .error .mixed ∧
    loadsArion "- x\n.a 1" = .error .mixed :=
  ⟨fun fuel lines t aO a hne => parseLoop_mixed_no_ok fuel lines t aO a hne, rfl, rfl⟩

theorem arion_C6_witness :
    ([("a", Value.num "1")] : List (String × Value)) ≠ [] ∧
    parseLoop 1 [] 0 [("a", Value.num "1")] (some [Value.str "x"]) ≠
      .ok (.obj [("a", Value.num "1")], []) :=
  ⟨by simp, arion_C6.1 1 [] 0 [("a", Value.num "1")] [Value.str "x"] (by simp) _ _⟩

/-- Claim C7 (amended): on trimmed input the scalar resolver equals the
ordered first-match cascade the specification describes, an unquoted true is
the boolean, and a quote-marked true decodes to the string true; that string
has four characters, not three as the specification asserts. -/
theorem arion_C7 :
    (∀ s : List Char, jsTrimL s = s → parseScalar s = specScalarResolve s) ∧
    parseScalar (("true" : String).toList) = .bool true ∧
    parseScalar ('\'' :: ("true" : String).toList) = .str "true" ∧
    ("true" : String).length = 4 :=
  ⟨fun s hs => parseScalar_eq_specResolve s hs, rfl, rfl, rfl⟩

theorem arion_C7_witness :
    jsTrimL (("37" : String).toList) = ("37" : String).toList ∧
    parseScalar (("37" : String).toList) = specScalarResolve (("37" : String).toList) :=
  ⟨by decide, arion_C7.1 (("37" : String).toList) (by decide)⟩

theorem arion_C7_counterexample :
    parseScalar ('\'' :: ("true" : String).toList) = .str "true" ∧
    ("true" : String).length = 4 ∧ (4 : Nat) ≠ 3 :=
  ⟨rfl, rfl, by decide⟩

/-- Claim C8 (amended): every decode error is fatal to the whole call, and a
malformed-line error carries the stripped content of a real tokenized line
together with that line's indentation level, not its line index. -/
theorem arion_C8 (text : String) (e : PErr) (h : loadsArion text = .error e) :
    e = .mixed ∨
      ∃ i s, e = .invalidLine i s ∧ (i, s.toList) ∈ tokenizeLines text.toList :=
  loadsArion_error_class text e h

theorem arion_C8_witness :
    loadsArion "x" = .error (.invalidLine 0 "x") ∧
    (PErr.invalidLine 0 "x" = .mixed ∨
      ∃ i s, PErr.invalidLine 0 "x" = .invalidLine i s ∧
        (i, s.toList) ∈ tokenizeLines (("x" : String).toList)) :=
  ⟨rfl, arion_C8 "x" _ rfl⟩

theorem arion_C8_counterexample :
    loadsArion "#c\n    x" = .error (.invalidLine 4 "x") ∧
    (4 : Nat) ≠ 1 ∧ (4 : Nat) ≠ 2 :=
  ⟨rfl, by decide, by decide⟩

/-- Claim C9: a key line with no inline value whose block ends (no further
line, or the next line does not indent deeper) records an empty object under
that key, and a bare dash line in the same position appends an empty object to
the array accumulator. -/
theorem arion_C9 :
    (∀ (fuel i t : Nat) (k : List Char) (aO : List (String × Value))
        (aA : Option (List Value)), ¬ i < t → ' ' ∉ k →
      parseLoop (fuel + 1) [(i, '.' :: k)] t aO aA =
        parseLoop fuel [] t (jsInsert aO (String.mk k) (.obj [])) aA) ∧
    (∀ (fuel i t ni : Nat) (k ns : List Char) (rest2 : List (Nat × List Char))
        (aO : List (String × Value)) (aA : Option (List Value)),
      ¬ i < t → ' ' ∉ k → ni ≤ i →
      parseLoop (fuel + 1) ((i, '.' :: k) :: (ni, ns) :: rest2) t aO aA =
        parseLoop fuel ((ni, ns) :: rest2) t (jsInsert aO (String.mk k) (.obj [])) aA) ∧
    (∀ (fuel i t : Nat) (aO : List (String × Value)) (aA : Option (List Value)),
      ¬ i < t →
      parseLoop (fuel + 1) [(i, ['-'])] t aO aA =
        parseLoop fuel [] t aO (some (aA.getD [] ++ [.obj []]))) ∧
    (∀ (fuel i t ni : Nat) (ns : List Char) (rest2 : List (Nat × List Char))
        (aO : List (String × Value)) (aA : Option (List Value)),
      ¬ i < t → ni ≤ i →
      parseLoop (fuel + 1) ((i, ['-']) :: (ni, ns) :: rest2) t aO aA =
        parseLoop fuel ((ni, ns) :: rest2) t aO (some (aA.getD [] ++ [.obj []]))) :=
  ⟨fun fuel i t k aO aA hti hk => step_dot_bare_nil fuel i t k aO aA hti hk,
   fun fuel i t ni k ns rest2 aO aA hti hk hni =>
     step_dot_bare_le fuel i t ni k ns rest2 aO aA hti hk hni,
   fun fuel i t aO aA hti => step_dash_bare_nil fuel i t aO aA hti,
   fun fuel i t ni ns rest2 aO aA hti hni =>
     step_dash_bare_le fuel i t ni ns rest2 aO aA hti hni⟩

theorem arion_C9_witness :
    ¬ (0 : Nat) < 0 ∧ ' ' ∉ (['k'] : List Char) ∧
    parseLoop 2 [(0, ['.', 'k'])] 0 [] none =
      parseLoop 1 [] 0 (jsInsert [] (String.mk ['k']) (.obj [])) none :=
  ⟨by decide, by decide, arion_C9.1 1 0 0 ['k'] [] none (by decide) (by decide)⟩

/-- Claim C10: a text whose raw lines are all whitespace-only, comments, or
header lines tokenizes to nothing, and decoding it returns null. -/
theorem arion_C10 (text : String)
    (h : ∀ seg ∈ splitRN text.toList,
      seg.all jsWhitespace = true ∨
      startsWithL ("#".toList) (seg.dropWhile (fun c => c = ' ')) = true ∨
      startsWithL ("!ARION".toList) (seg.dropWhile (fun c => c = ' ')) = true) :
    loadsArion text = .ok .null :=
  loadsArion_ignored text h

theorem arion_C10_witness :
    (∀ seg ∈ splitRN (("!ARION 1.0\n\n# c\n   " : String).toList),
      seg.all jsWhitespace = true ∨
      startsWithL ("#".toList) (seg.dropWhile (fun c => c = ' ')) = true ∨
      startsWithL ("!ARION".toList) (seg.dropWhile (fun c => c = ' ')) = true) ∧
    loadsArion "!ARION 1.0\n\n# c\n   " = .ok .null := by
  have h : ∀ seg ∈ splitRN (("!ARION 1.0\n\n# c\n   " : String).toList),
      seg.all jsWhitespace = true ∨
      startsWithL ("#".toList) (seg.dropWhile (fun c => c = ' ')) = true ∨
      startsWithL ("!ARION".toList) (seg.dropWhile (fun c => c = ' ')) = true := by
    decide
  exact ⟨h, arion_C10 _ h⟩

end Arion
